import Mathlib

/-!
Verification development for the MRPT (multiple random projection trees)
approximate nearest neighbour index, file src/timing/timing_tester/Mrpt.h.

Shallow embedding conventions:
* Machine floats and doubles are modelled by exact rationals.  Square roots
  (only used for the optional output distances of exact_knn) live in the reals.
* The data matrix X, the query q and the projection matrix rows are lists of
  rationals; column j of X is the function argument j.
* std::nth_element and std::partial_sort are unstable selection and partial
  sorting algorithms; a full sort by the same comparison is one of their
  allowed implementations, and the embedding uses that completion
  (List.insertionSort with the non-strict value comparison).
* The recursion grow_subtree writes split values into the split_points array;
  the embedding threads a function Nat -> Rat through the recursion and
  performs the same pointwise updates.  It additionally returns the list of
  per-leaf index blocks (whose concatenation is the final contents of the
  indices vector, leaves in left to right order) and a trace of node records,
  one per internal node visited, carrying the data the invariants speak about.
-/

namespace Mrpt

/-- Recursion core of count_leaf_sizes, structured on the number of levels
still to descend (tree_depth - level in the source, which recurses while
level is below tree_depth and emits n when level == tree_depth). -/
def count_leaf_sizes_go : Nat → Nat → List Nat
  | n, 0 => [n]
  | n, r + 1 => count_leaf_sizes_go (n - n / 2) r ++ count_leaf_sizes_go (n / 2) r

/-- count_leaf_sizes (Mrpt.h lines 506-513): leaf sizes of a median-split
tree over n points, odd counts sending the extra point to the left branch. -/
def count_leaf_sizes (n level tree_depth : Nat) : List Nat :=
  count_leaf_sizes_go n (tree_depth - level)

/-- count_first_leaf_indices (Mrpt.h lines 521-529): prefix sums of the leaf
sizes, starting at 0. -/
def count_first_leaf_indices (n depth : Nat) : List Nat :=
  List.scanl (· + ·) 0 (count_leaf_sizes n 0 depth)

/-- count_first_leaf_indices_all (Mrpt.h lines 531-537): the prefix-sum
arrays for every depth from 0 to depth_max. -/
def count_first_leaf_indices_all (n depth_max : Nat) : List (List Nat) :=
  (List.range (depth_max + 1)).map (fun d => count_first_leaf_indices n d)

/-- Trace record for one internal node visited by grow_subtree: the level,
the node index in the implicit binary heap layout, the points of the node
sorted by their projected coordinate at this level, and the split value
stored into split_points. -/
structure NodeRec where
  level : Nat
  node : Nat
  pts : List Nat
  split : ℚ
deriving Repr, DecidableEq

/-- Points handed to the left child: the first n - n/2 positions of the
partitioned range (iterators begin to mid in the source, mid = end - n/2). -/
def NodeRec.leftPts (r : NodeRec) : List Nat :=
  r.pts.take (r.pts.length - r.pts.length / 2)

/-- Points handed to the right child (iterators mid to end in the source). -/
def NodeRec.rightPts (r : NodeRec) : List Nat :=
  r.pts.drop (r.pts.length - r.pts.length / 2)

/-- The split value grow_subtree stores at a node, recomputed from the trace
record: the projection of the last left point for odd counts, the mean of
the projections of the last left and first right points for even counts
(Mrpt.h lines 775-784). -/
def split_formula (proj : Nat → Nat → ℚ) (rc : NodeRec) : ℚ :=
  if rc.pts.length % 2 = 1 then
    proj rc.level (rc.leftPts.getLastD 0)
  else
    (proj rc.level (rc.rightPts.headD 0) + proj rc.level (rc.leftPts.getLastD 0)) / 2

/-- grow_subtree (Mrpt.h lines 761-788).  Arguments: projected coordinates
for the current tree (level, data point index -> value), tree depth, current
level, node index i, the index range of this branch, and the split_points
column being filled in.  Returns the per-leaf blocks of the permuted index
range (left to right), the updated split_points column, and the trace of
internal node records.  The source returns when tree_level == depth; it only
calls itself with tree_level at most depth, where this definition agrees. -/
def grow_subtree_go (proj : Nat → Nat → ℚ) :
    Nat → Nat → Nat → List Nat → (Nat → ℚ) →
    List (List Nat) × (Nat → ℚ) × List NodeRec
  | 0, _tree_level, _i, indices, split_points => ([indices], split_points, [])
  | r + 1, tree_level, i, indices, split_points =>
    let n := indices.length
    let idx_left := 2 * i + 1
    let idx_right := idx_left + 1
    let sorted := List.insertionSort
      (fun i1 i2 => proj tree_level i1 ≤ proj tree_level i2) indices
    let left := sorted.take (n - n / 2)
    let right := sorted.drop (n - n / 2)
    let s : ℚ :=
      if n % 2 = 1 then
        proj tree_level (left.getLastD 0)
      else
        (proj tree_level (right.headD 0) + proj tree_level (left.getLastD 0)) / 2
    let sp1 : Nat → ℚ := fun j => if j = i then s else split_points j
    let resL := grow_subtree_go proj r (tree_level + 1) idx_left left sp1
    let resR := grow_subtree_go proj r (tree_level + 1) idx_right right resL.2.1
    (resL.1 ++ resR.1, resR.2.1, ⟨tree_level, i, sorted, s⟩ :: (resL.2.2 ++ resR.2.2))

/-- grow_subtree entry point; the recursion core is structured on the
number of levels still to descend (depth - tree_level in the source, which
returns when tree_level == depth). -/
def grow_subtree (proj : Nat → Nat → ℚ) (depth : Nat) (tree_level i : Nat)
    (indices : List Nat) (split_points : Nat → ℚ) :
    List (List Nat) × (Nat → ℚ) × List NodeRec :=
  grow_subtree_go proj (depth - tree_level) tree_level i indices split_points

/-- One tree of grow (Mrpt.h lines 77-81): indices initialised to
0, ..., n_samples - 1 by iota and grow_subtree started at the root. -/
def grow_tree (proj : Nat → Nat → ℚ) (depth n_samples : Nat) :
    List (List Nat) × (Nat → ℚ) × List NodeRec :=
  grow_subtree proj depth 0 0 (List.range n_samples) (fun _ => 0)

/-- The forest state built by grow that the query path reads:
split_points (tree, node -> value), tree_leaves (per tree, the leaves
concatenated left to right) and leaf_first_indices for the tree depth. -/
structure Forest where
  n_samples : Nat
  dim : Nat
  n_trees : Nat
  depth : Nat
  split_points : Nat → Nat → ℚ
  tree_leaves : Nat → List Nat
  leaf_first_indices : List Nat

/-- grow (Mrpt.h lines 53-83) with the random projections abstracted into
the argument proj (tree, level, data point -> projected coordinate);
proj t corresponds to row block t of the projection matrix times X. -/
def growForest (proj : Nat → Nat → Nat → ℚ) (n_trees depth n_samples dim : Nat) :
    Forest where
  n_samples := n_samples
  dim := dim
  n_trees := n_trees
  depth := depth
  split_points := fun t => (grow_tree (proj t) depth n_samples).2.1
  tree_leaves := fun t => (grow_tree (proj t) depth n_samples).1.flatten
  leaf_first_indices := count_first_leaf_indices n_samples depth

/-- Dot product of two vectors given as lists. -/
def dot (x y : List ℚ) : ℚ :=
  (List.zipWith (· * ·) x y).sum

/-- Matrix-vector product: row j of the matrix times the vector, used for
projected_query = random_matrix * q (Mrpt.h lines 155-159). -/
def mat_vec (P : Nat → List ℚ) (q : List ℚ) : Nat → ℚ :=
  fun j => dot (P j) q

/-- Squared Euclidean distance between two vectors given as lists
((X.col(i) - q).squaredNorm() in the source). -/
def squared_norm (x q : List ℚ) : ℚ :=
  (List.zipWith (fun a b => (a - b) ^ 2) x q).sum

/-- Root-to-leaf descent of the query loop (Mrpt.h lines 171-183): starting
at node 0, at each level go to child 2i+1 when the projected query coordinate
is at most the split point, else to child 2i+2. -/
def route_node (projected_query : Nat → ℚ) (sp : Nat → ℚ) (depth n_tree : Nat) : Nat :=
  (List.range depth).foldl
    (fun idx_tree d =>
      if projected_query (n_tree * depth + d) ≤ sp idx_tree then
        2 * idx_tree + 1
      else
        2 * idx_tree + 2)
    0

/-- found_leaves[n_tree] (Mrpt.h line 184): the reached node re-based to a
leaf ordinal, idx_tree - (2 ^ depth - 1). -/
def found_leaf (projected_query : Nat → ℚ) (sp : Nat → ℚ) (depth n_tree : Nat) : Nat :=
  route_node projected_query sp depth n_tree + 1 - 2 ^ depth

/-- The index block of one leaf inside the concatenated leaves of a tree:
positions leaf_first_indices[leaf] to leaf_first_indices[leaf+1]
(Mrpt.h lines 193-197). -/
def leaf_slab (indices : List Nat) (lfi : List Nat) (leaf : Nat) : List Nat :=
  (indices.drop (lfi.getD leaf 0)).take (lfi.getD (leaf + 1) 0 - lfi.getD leaf 0)

/-- The stream of data point indices inspected by the vote-counting loop:
trees in ascending order, within a tree the routed leaf's block in stored
order (Mrpt.h lines 192-201). -/
def vote_stream (F : Forest) (projected_query : Nat → ℚ) : List Nat :=
  (List.range F.n_trees).flatMap fun t =>
    leaf_slab (F.tree_leaves t) F.leaf_first_indices
      (found_leaf projected_query (F.split_points t) F.depth t)

/-- The vote-counting loop (Mrpt.h lines 192-201): votes is a dense counter
vector initialised to zero; each stream element increments its counter and
is appended to elected at the moment the counter equals votes_required
(an int in the source, hence the comparison in the integers). -/
def vote_step (votes_required : Int) (st : (Nat → Nat) × List Nat) (idx : Nat) :
    (Nat → Nat) × List Nat :=
  let v := st.1 idx + 1
  (fun j => if j = idx then v else st.1 j,
   if (v : Int) = votes_required then st.2 ++ [idx] else st.2)

/-- The vote-counting loop as a fold of vote_step from zero counters and an
empty elected list. -/
def count_votes (votes_required : Int) (stream : List Nat) :
    (Nat → Nat) × List Nat :=
  stream.foldl (vote_step votes_required) (fun _ => 0, [])

/-- The elected candidate list produced by one query (Mrpt.h lines 187-201). -/
def elected (F : Forest) (projected_query : Nat → ℚ) (votes_required : Int) :
    List Nat :=
  (count_votes votes_required (vote_stream F projected_query)).2

/-- Eigen minCoeff(&index): index of the first strictly smallest coefficient.
Auxiliary recursion carrying the best value, its index and the next index. -/
def min_coeff_aux (best_val : ℚ) (best_idx cur : Nat) : List ℚ → Nat
  | [] => best_idx
  | d :: ds =>
    if d < best_val then
      min_coeff_aux d cur (cur + 1) ds
    else
      min_coeff_aux best_val best_idx (cur + 1) ds

/-- Eigen minCoeff(&index) on a nonempty list (0 on the empty list). -/
def min_coeff_index : List ℚ → Nat
  | [] => 0
  | d :: ds => min_coeff_aux d 0 1 ds

/-- exact_knn (Mrpt.h lines 223-263), index output.  The candidate list
plays the role of (indices, n_elected); when it is empty every output slot
is the sentinel -1; when k = 1 a single linear minimum is taken; otherwise
the candidate positions are sorted by squared distance and the first
min(k, n_elected) output slots receive candidates in that order, the rest
the sentinel -1.  (partial_sort of the first min(k, n_elected) positions is
completed to a full sort, which refines it.) -/
def exact_knn (X : Nat → List ℚ) (q : List ℚ) (k : Nat) (indices : List Nat) :
    List Int :=
  let n_elected := indices.length
  if n_elected = 0 then
    List.replicate k (-1)
  else
    let distances : Nat → ℚ := fun i => squared_norm (X (indices.getD i 0)) q
    if k = 1 then
      [Int.ofNat (indices.getD (min_coeff_index ((List.range n_elected).map distances)) 0)]
    else
      let idx := List.insertionSort
        (fun i1 i2 => distances i1 ≤ distances i2) (List.range n_elected)
      (List.range k).map fun i =>
        if i < n_elected then Int.ofNat (indices.getD (idx.getD i 0) 0) else -1

/-- exact_knn (Mrpt.h lines 223-263), optional distance output: square roots
of the squared norms in the same order as the index output, the sentinel -1
in the padded slots. -/
noncomputable def exact_knn_distances (X : Nat → List ℚ) (q : List ℚ) (k : Nat)
    (indices : List Nat) : List ℝ :=
  let n_elected := indices.length
  if n_elected = 0 then
    List.replicate k (-1)
  else
    let distances : Nat → ℚ := fun i => squared_norm (X (indices.getD i 0)) q
    if k = 1 then
      [Real.sqrt ((distances (min_coeff_index ((List.range n_elected).map distances)) : ℚ) : ℝ)]
    else
      let idx := List.insertionSort
        (fun i1 i2 => distances i1 ≤ distances i2) (List.range n_elected)
      (List.range k).map fun i =>
        if i < n_elected then Real.sqrt ((distances (idx.getD i 0) : ℚ) : ℝ) else -1

/-- query (Mrpt.h lines 150-211) without the wall-clock instrumentation:
project the query, route it to one leaf per tree, count votes, and run
exact_knn on the elected candidates. -/
def queryMrpt (F : Forest) (P : Nat → List ℚ) (X : Nat → List ℚ) (q : List ℚ)
    (k : Nat) (votes_required : Int) : List Int :=
  exact_knn X q k (elected F (mat_vec P q) votes_required)

/-- Projections actually used by grow for tree t at a given level: row
t * depth + level of the projection matrix times column p of X
(tree_projections in Mrpt.h lines 70-75). -/
def proj_of (P : Nat → List ℚ) (X : Nat → List ℚ) (depth : Nat)
    (t level p : Nat) : ℚ :=
  dot (P (t * depth + level)) (X p)

/-- grow on concrete data: the forest built from projection matrix P and
data matrix X. -/
def grow_forest_data (P : Nat → List ℚ) (X : Nat → List ℚ)
    (n_trees depth n_samples dim : Nat) : Forest :=
  growForest (proj_of P X depth) n_trees depth n_samples dim

/-! Persistence (save, Mrpt.h lines 270-307; load, lines 314-367).  The byte
stream written with fwrite is modelled as a list of tokens, one per int or
float written; fread of a token of the other kind, or past the end of the
stream, fails. -/

/-- One fwrite-d scalar: an int or a float. -/
inductive Token where
  | ti : Int → Token
  | tf : ℚ → Token
deriving Repr, DecidableEq

/-- The serialisable state of an index: exactly the fields save writes and
load restores, together with the sizes they are consistent with.  The sparse
random matrix is represented by its compressed row-major triple list (the
order the InnerIterator loop of save visits), the dense one by its row-major
coefficient list. -/
structure MrptIndex where
  n_samples : Nat
  dim : Nat
  n_trees : Nat
  depth : Nat
  density : ℚ
  n_pool : Nat
  n_array : Nat
  split_points : List ℚ
  tree_leaves : List (List Nat)
  sparse_random_matrix : List (Nat × Nat × ℚ)
  dense_random_matrix : List ℚ
  leaf_first_indices_all : List (List Nat)
  leaf_first_indices : List Nat
deriving Repr, DecidableEq

/-- save (Mrpt.h lines 270-307): n_trees, depth, density, the split_points
block, for each tree its size and leaf vector, then the random matrix
(nnz and triples when density < 1, the dense coefficients otherwise). -/
def save (M : MrptIndex) : List Token :=
  Token.ti M.n_trees :: Token.ti M.depth :: Token.tf M.density ::
    (M.split_points.map Token.tf ++
      (M.tree_leaves.flatMap fun leaves =>
        Token.ti leaves.length :: leaves.map (fun x : Nat => Token.ti (Int.ofNat x))) ++
      (if M.density < 1 then
        Token.ti M.sparse_random_matrix.length ::
          (M.sparse_random_matrix.flatMap fun tr =>
            [Token.ti tr.1, Token.ti tr.2.1, Token.tf tr.2.2])
      else
        M.dense_random_matrix.map Token.tf))

/-- fread of one int. -/
def readInt : List Token → Option (Int × List Token)
  | Token.ti z :: rest => some (z, rest)
  | _ => none

/-- fread of one float. -/
def readFloat : List Token → Option (ℚ × List Token)
  | Token.tf x :: rest => some (x, rest)
  | _ => none

/-- fread of n floats. -/
def readFloats : Nat → List Token → Option (List ℚ × List Token)
  | 0, s => some ([], s)
  | n + 1, s => do
    let (x, s) ← readFloat s
    let (xs, s) ← readFloats n s
    some (x :: xs, s)

/-- fread of n ints, taken as indices. -/
def readNats : Nat → List Token → Option (List Nat × List Token)
  | 0, s => some ([], s)
  | n + 1, s => do
    let (z, s) ← readInt s
    let (zs, s) ← readNats n s
    some (z.toNat :: zs, s)

/-- The tree-leaves loop of load (Mrpt.h lines 333-340): for each tree a
size and then that many indices. -/
def readLeaves : Nat → List Token → Option (List (List Nat) × List Token)
  | 0, s => some ([], s)
  | n + 1, s => do
    let (sz, s) ← readInt s
    let (leaves, s) ← readNats sz.toNat s
    let (rest, s) ← readLeaves n s
    some (leaves :: rest, s)

/-- The triple loop of load (Mrpt.h lines 349-356). -/
def readTriples : Nat → List Token → Option (List (Nat × Nat × ℚ) × List Token)
  | 0, s => some ([], s)
  | n + 1, s => do
    let (row, s) ← readInt s
    let (col, s) ← readInt s
    let (val, s) ← readFloat s
    let (rest, s) ← readTriples n s
    some ((row.toNat, col.toNat, val) :: rest, s)

/-- Row-major (row, then column) Boolean order on triples. -/
def tripleLe (a b : Nat × Nat × ℚ) : Bool :=
  a.1 < b.1 || (a.1 == b.1 && a.2.1 ≤ b.2.1)

/-- Sorted insertion for setFromTriplets. -/
def insertTriple (a : Nat × Nat × ℚ) :
    List (Nat × Nat × ℚ) → List (Nat × Nat × ℚ)
  | [] => [a]
  | b :: t => if tripleLe a b then a :: b :: t else b :: insertTriple a t

/-- setFromTriplets followed by makeCompressed (Mrpt.h lines 358-359):
the stored matrix holds the triples in row-major order.  (Duplicate
positions would be summed by Eigen; save never emits duplicates.) -/
def setFromTriplets : List (Nat × Nat × ℚ) → List (Nat × Nat × ℚ)
  | [] => []
  | a :: t => insertTriple a (setFromTriplets t)

/-- Strict row-major order on triples: the order in which the compressed
row-major iteration of save emits them. -/
def triple_lt (a b : Nat × Nat × ℚ) : Prop :=
  a.1 < b.1 ∨ (a.1 = b.1 ∧ a.2.1 < b.2.1)

instance (a b : Nat × Nat × ℚ) : Decidable (triple_lt a b) :=
  inferInstanceAs (Decidable (a.1 < b.1 ∨ (a.1 = b.1 ∧ a.2.1 < b.2.1)))

/-- load (Mrpt.h lines 314-367): reads the header, recomputes n_pool,
n_array and the leaf offset tables from the index's own n_samples, then
reads split points, tree leaves and the random matrix. -/
def load (n_samples dim : Nat) (s : List Token) : Option MrptIndex := do
  let (ntz, s) ← readInt s
  let (dpz, s) ← readInt s
  let (density, s) ← readFloat s
  let n_trees := ntz.toNat
  let depth := dpz.toNat
  let n_pool := n_trees * depth
  let n_array := 2 ^ (depth + 1)
  let lfi_all := count_first_leaf_indices_all n_samples depth
  let (sp, s) ← readFloats (n_array * n_trees) s
  let (leaves, s) ← readLeaves n_trees s
  if density < 1 then do
    let (nnz, s) ← readInt s
    let (triples, _) ← readTriples nnz.toNat s
    some
      { n_samples := n_samples, dim := dim, n_trees := n_trees, depth := depth,
        density := density, n_pool := n_pool, n_array := n_array,
        split_points := sp, tree_leaves := leaves,
        sparse_random_matrix := setFromTriplets triples,
        dense_random_matrix := [],
        leaf_first_indices_all := lfi_all,
        leaf_first_indices := lfi_all.getD depth [] }
  else do
    let (dm, _) ← readFloats (n_pool * dim) s
    some
      { n_samples := n_samples, dim := dim, n_trees := n_trees, depth := depth,
        density := density, n_pool := n_pool, n_array := n_array,
        split_points := sp, tree_leaves := leaves,
        sparse_random_matrix := [],
        dense_random_matrix := dm,
        leaf_first_indices_all := lfi_all,
        leaf_first_indices := lfi_all.getD depth [] }

/-- Row j of the random matrix of a serialisable index, as the query path
multiplies it: dense row-major rows of length dim, or the sparse triples of
row j scattered into a dense row. -/
def MrptIndex.matRow (M : MrptIndex) (j : Nat) : List ℚ :=
  if M.density < 1 then
    (List.range M.dim).map fun c =>
      (((M.sparse_random_matrix.find? fun tr =>
          tr.1 == j && tr.2.1 == c).map fun tr => tr.2.2).getD 0)
  else
    (M.dense_random_matrix.drop (j * M.dim)).take M.dim

/-- The query-path view of a serialisable index: split_points is stored
column-major by tree (entry (node, tree) at position tree * n_array + node),
tree_leaves per tree. -/
def MrptIndex.toForest (M : MrptIndex) : Forest where
  n_samples := M.n_samples
  dim := M.dim
  n_trees := M.n_trees
  depth := M.depth
  split_points := fun t node => M.split_points.getD (t * M.n_array + node) 0
  tree_leaves := fun t => M.tree_leaves.getD t []
  leaf_first_indices := M.leaf_first_indices

/-! The autotuner's Parameters records and the Pareto logic
(Mrpt.h lines 20-26, 654-663, 1021-1052). -/

/-- Parameters (Mrpt.h lines 20-26); a value-initialised record has
n_trees = 0. -/
structure Parameters where
  n_trees : Nat
  depth : Nat
  votes : Nat
  estimated_qtime : ℚ
  estimated_recall : ℚ
deriving Repr, DecidableEq

/-- The value-initialised Parameters record returned on infeasible targets. -/
def Parameters.empty : Parameters :=
  { n_trees := 0, depth := 0, votes := 0, estimated_qtime := 0, estimated_recall := 0 }

/-- get_optimal_parameters (Mrpt.h lines 654-663): the first element of
opt_pars, in container order, whose estimated recall exceeds
target_recall - 0.0001; the empty record when none does. -/
def get_optimal_parameters (opt_pars : List Parameters) (target_recall : ℚ) :
    Parameters :=
  (opt_pars.find? fun par =>
    decide (par.estimated_recall > target_recall - 1 / 10000)).getD Parameters.empty

/-- Insertion into a std::set ordered by the comparator is_faster
(Mrpt.h lines 871-873): strictly by estimated_qtime; an element equivalent
to a present one (equal estimated_qtime) is not inserted. -/
def insert_pars (pars : List Parameters) (p : Parameters) : List Parameters :=
  match pars with
  | [] => [p]
  | q :: rest =>
    if p.estimated_qtime < q.estimated_qtime then p :: q :: rest
    else if q.estimated_qtime < p.estimated_qtime then q :: insert_pars rest p
    else q :: rest

/-- The candidate lattice of fit_times in its enumeration order
(Mrpt.h lines 1023-1039): depth from depth_min to depth, trees from 1 to
n_trees, votes from 1 to min(votes_max, t); estimated_qtime and
estimated_recall abstract the fitted get_query_time and get_recall values. -/
def candidate_list (recalls qtimes : Nat → Nat → Nat → ℚ)
    (depth_min depth n_trees votes_max : Nat) : List Parameters :=
  (List.range' depth_min (depth + 1 - depth_min)).flatMap fun d =>
    (List.range' 1 n_trees).flatMap fun t =>
      (List.range' 1 (min votes_max t)).map fun v =>
        { n_trees := t, depth := d, votes := v,
          estimated_qtime := qtimes t d v, estimated_recall := recalls t d v }

/-- The pars set after the insertion loop of fit_times
(Mrpt.h lines 1021-1041). -/
def pars_of (recalls qtimes : Nat → Nat → Nat → ℚ)
    (depth_min depth n_trees votes_max : Nat) : List Parameters :=
  (candidate_list recalls qtimes depth_min depth n_trees votes_max).foldl insert_pars []

/-- The compiler-escape perturbation (Mrpt.h line 1044): the estimated
recall of the fastest element of pars is increased by 0.0002 or 0.0001
according to a timing-dependent accumulator, abstracted as eps. -/
def perturb_head (eps : ℚ) : List Parameters → List Parameters
  | [] => []
  | p :: rest => { p with estimated_recall := p.estimated_recall + eps } :: rest

/-- The Pareto-frontier loop of fit_times (Mrpt.h lines 1046-1052):
traverse pars in container order, insert a record into the opt_pars set
whenever its estimated recall strictly exceeds the best seen so far
(starting from -1). -/
def opt_pars_scan (pars : List Parameters) : List Parameters :=
  (pars.foldl
    (fun st par =>
      if par.estimated_recall > st.2 then (insert_pars st.1 par, par.estimated_recall)
      else st)
    ([], -1)).1

/-- The opt_pars container computed by fit_times from the estimated recalls
and query times. -/
def fit_times_opt_pars (recalls qtimes : Nat → Nat → Nat → ℚ)
    (depth_min depth n_trees votes_max : Nat) (eps : ℚ) : List Parameters :=
  opt_pars_scan (perturb_head eps (pars_of recalls qtimes depth_min depth n_trees votes_max))

/-- Ascending sort of the candidate records by estimated_qtime, as the words
of the claim describe (a scan over all candidates, none dropped). -/
def sort_by_qtime (l : List Parameters) : List Parameters :=
  List.insertionSort (fun a b => a.estimated_qtime ≤ b.estimated_qtime) l

/-- The scan the claim describes: traverse in ascending estimated_qtime and
keep a record exactly when its estimated recall strictly exceeds the best
recall seen so far. -/
def greedy_pareto (l : List Parameters) : List Parameters :=
  (l.foldl
    (fun st par =>
      if par.estimated_recall > st.2 then (st.1 ++ [par], par.estimated_recall)
      else st)
    ([], -1)).1

/-- The claim's reading of the opt_pars construction: the greedy scan over
all candidate records in ascending estimated_qtime order. -/
def claim_opt_pars (recalls qtimes : Nat → Nat → Nat → ℚ)
    (depth_min depth n_trees votes_max : Nat) : List Parameters :=
  greedy_pareto (sort_by_qtime (candidate_list recalls qtimes depth_min depth n_trees votes_max))

/-! The mutable index state read and written by delete_extra_trees
(Mrpt.h lines 678-707), subset_trees (lines 709-740) and the autotuned
query overload (lines 666-675). -/

/-- The fields of an Mrpt object that the trimming operations and the
autotuned query touch.  P is the projection matrix as a function from row
index to row. -/
structure MrptState where
  n_samples : Nat
  dim : Nat
  n_trees : Nat
  depth : Nat
  density : ℚ
  votes : Int
  k : Nat
  recall_level : ℚ
  optimal_parameters : Parameters
  opt_pars : List Parameters
  split_points : Nat → Nat → ℚ
  tree_leaves : Nat → List Nat
  leaf_first_indices_all : List (List Nat)
  leaf_first_indices : List Nat
  P : Nat → List ℚ

/-- A freshly constructed Mrpt(X): only n_samples and dim are set, the
other members take their initialisers (n_trees = 0, depth = 0, density = 1,
votes = 0, recall_level = -1.0); the member k is left uninitialised by the
constructor and is therefore an arbitrary value k0. -/
def initState (n_samples dim k0 : Nat) : MrptState where
  n_samples := n_samples
  dim := dim
  n_trees := 0
  depth := 0
  density := 1
  votes := 0
  k := k0
  recall_level := -1
  optimal_parameters := Parameters.empty
  opt_pars := []
  split_points := fun _ _ => 0
  tree_leaves := fun _ => []
  leaf_first_indices_all := []
  leaf_first_indices := []
  P := fun _ => []

/-- The query-path view of an MrptState. -/
def MrptState.toForest (s : MrptState) : Forest where
  n_samples := s.n_samples
  dim := s.dim
  n_trees := s.n_trees
  depth := s.depth
  split_points := s.split_points
  tree_leaves := s.tree_leaves
  leaf_first_indices := s.leaf_first_indices

/-- The autotuned query overload (Mrpt.h lines 666-675): when
recall_level < 0 it returns without writing the output buffer (none);
otherwise it runs the main query with the stored k and votes. -/
def query_auto (s : MrptState) (X : Nat → List ℚ) (q : List ℚ) :
    Option (List Int) :=
  if s.recall_level < 0 then none
  else some (queryMrpt s.toForest s.P X q s.k s.votes)

/-- delete_extra_trees (Mrpt.h lines 678-707): look up the optimal
parameters for the target; when the lookup returns the empty record
(n_trees = 0) return with only recall_level and optimal_parameters changed;
otherwise shrink the tree arrays to the first n_trees trees, adopt the new
depth and votes, and rebuild the projection matrix from the rows
t * depth_max .. t * depth_max + depth of the old one. -/
def delete_extra_trees (s : MrptState) (target_recall : ℚ) : MrptState :=
  let op := get_optimal_parameters s.opt_pars target_recall
  let s1 := { s with recall_level := target_recall, optimal_parameters := op }
  if op.n_trees = 0 then s1
  else
    let depth_max := s.depth
    let depth := op.depth
    let n_pool := depth * op.n_trees
    { s1 with
      n_trees := op.n_trees
      depth := depth
      votes := op.votes
      leaf_first_indices := s.leaf_first_indices_all.getD depth []
      P := fun j => if j < n_pool then s.P (j / depth * depth_max + j % depth) else [] }

/-- subset_trees (Mrpt.h lines 709-740): same parameter lookup, written
into a second, freshly constructed index; when the lookup returns the empty
record the second index is returned with only recall_level and
optimal_parameters changed (it keeps n_trees = 0); otherwise the first
n_trees leaf vectors, the top-left split-point block, density, k and the
projection sub-matrix are copied into it. -/
def subset_trees (s : MrptState) (target_recall : ℚ) (index2 : MrptState) :
    MrptState :=
  let op := get_optimal_parameters s.opt_pars target_recall
  let i2 := { index2 with recall_level := target_recall, optimal_parameters := op }
  if op.n_trees = 0 then i2
  else
    let depth_max := s.depth
    let depth := op.depth
    let n_pool := depth * op.n_trees
    { i2 with
      n_trees := op.n_trees
      depth := depth
      votes := op.votes
      tree_leaves := fun t => if t < op.n_trees then s.tree_leaves t else []
      leaf_first_indices_all := s.leaf_first_indices_all
      density := s.density
      k := s.k
      split_points := fun t node =>
        if t < op.n_trees ∧ node < 2 ^ (depth + 1) then s.split_points t node else 0
      leaf_first_indices := s.leaf_first_indices_all.getD depth []
      P := fun j => if j < n_pool then s.P (j / depth * depth_max + j % depth) else [] }

/-! Concrete data used by witnesses and counterexamples: a two-point,
one-dimensional data set, a one-row projection matrix, and the forests of
one depth-1 tree grown from it. -/

/-- Example data matrix: two one-dimensional points at 0 and 10. -/
def exX : Nat → List ℚ := fun p => if p = 0 then [0] else [10]

/-- Example data matrix with the two points swapped. -/
def exX2 : Nat → List ℚ := fun p => if p = 0 then [10] else [0]

/-- Example projection matrix: the single row (1). -/
def exP : Nat → List ℚ := fun _ => [1]

/-- Forest of one depth-1 tree grown from exX. -/
def exF : Forest := grow_forest_data exP exX 1 1 2 1

/-- Forest of one depth-1 tree grown from exX2. -/
def exF2 : Forest := grow_forest_data exP exX2 1 1 2 1

/-- Example projections used directly (level, point -> point value). -/
def exProj : Nat → Nat → ℚ := fun _ p => (p : ℚ)

/-- The root record of the tree grow_tree exProj 1 2 builds. -/
def exRec : NodeRec := ⟨0, 0, [0, 1], 1 / 2⟩

/-- Example estimated recalls over the candidate lattice: 1/2 for one tree,
9/10 for two trees. -/
def exRecall : Nat → Nat → Nat → ℚ := fun t _ _ => if t = 1 then 1 / 2 else 9 / 10

/-- Example estimated query times: all equal (a tie). -/
def exQtime : Nat → Nat → Nat → ℚ := fun _ _ _ => 1

/-- Example autotuned index state over two points with one tree, a fitted
Pareto set whose only recall is 1/2, and votes still 0. -/
def exState : MrptState where
  n_samples := 2
  dim := 1
  n_trees := 1
  depth := 1
  density := 1
  votes := 0
  k := 2
  recall_level := -1
  optimal_parameters := Parameters.empty
  opt_pars := [{ n_trees := 1, depth := 1, votes := 1,
                 estimated_qtime := 1, estimated_recall := 1 / 2 }]
  split_points := fun _ _ => 5
  tree_leaves := fun t => if t = 0 then [0, 1] else []
  leaf_first_indices_all := count_first_leaf_indices_all 2 1
  leaf_first_indices := count_first_leaf_indices 2 1
  P := exP

/-- Example serialisable index over two points, one depth-1 tree, dense
random matrix. -/
def exM : MrptIndex where
  n_samples := 2
  dim := 1
  n_trees := 1
  depth := 1
  density := 1
  n_pool := 1
  n_array := 4
  split_points := [5, 0, 0, 0]
  tree_leaves := [[0, 1]]
  sparse_random_matrix := []
  dense_random_matrix := [1]
  leaf_first_indices_all := count_first_leaf_indices_all 2 1
  leaf_first_indices := (count_first_leaf_indices_all 2 1).getD 1 []

/-- Example Parameters record on the Pareto frontier. -/
def exPar : Parameters where
  n_trees := 1
  depth := 2
  votes := 1
  estimated_qtime := 1
  estimated_recall := 1 / 2

end Mrpt

namespace Mrpt

/-! Voting invariants (claim C3 and the election part of C7, C9, C10). -/

/-- The vote-counting fold preserves the election invariant: if the elected
list counts each index once exactly when its vote counter has reached the
threshold, the same holds after consuming any further stream, with counters
increased by the stream occurrence counts. -/
theorem count_votes_loop (v : Int) (hv : 1 ≤ v) (stream : List Nat) :
    ∀ (votes : Nat → Nat) (el : List Nat),
      (∀ i, el.count i = if v ≤ (votes i : Int) then 1 else 0) →
      ∀ i, ((stream.foldl (vote_step v) (votes, el)).2).count i =
        if v ≤ ((votes i + stream.count i : Nat) : Int) then 1 else 0 := by
  induction stream with
  | nil =>
    intro votes el h i
    simpa using h i
  | cons a rest ih =>
    intro votes el h i
    rw [List.foldl_cons]
    have hpair : vote_step v (votes, el) a =
        (fun j => if j = a then votes a + 1 else votes j,
         if ((votes a + 1 : Nat) : Int) = v then el ++ [a] else el) := rfl
    rw [hpair]
    have hinv : ∀ j,
        (if ((votes a + 1 : Nat) : Int) = v then el ++ [a] else el).count j =
          if v ≤ ((if j = a then votes a + 1 else votes j : Nat) : Int) then 1 else 0 := by
      intro j
      by_cases hj : j = a
      · subst hj
        rw [if_pos rfl]
        by_cases hcross : ((votes j + 1 : Nat) : Int) = v
        · rw [if_pos hcross, List.count_append]
          have hlt : ¬ v ≤ (votes j : Int) := by push_cast at hcross ⊢; omega
          have h2 : v ≤ ((votes j + 1 : Nat) : Int) := le_of_eq hcross.symm
          rw [h j, if_neg hlt, if_pos h2]
          simp
        · rw [if_neg hcross, h j]
          have hiff : (v ≤ (votes j : Int)) ↔ (v ≤ ((votes j + 1 : Nat) : Int)) := by
            push_cast at hcross ⊢; omega
          rw [if_congr hiff rfl rfl]
      · rw [if_neg hj]
        by_cases hcross : ((votes a + 1 : Nat) : Int) = v
        · rw [if_pos hcross, List.count_append, h j]
          have hz : [a].count j = 0 := by
            simp [List.count_cons, hj]
          rw [hz]
          omega
        · rw [if_neg hcross, h j]
    have hres := ih (fun j => if j = a then votes a + 1 else votes j)
      (if ((votes a + 1 : Nat) : Int) = v then el ++ [a] else el) hinv i
    rw [hres]
    by_cases hi : i = a
    · subst hi
      rw [if_pos rfl, List.count_cons_self]
      have : votes i + 1 + rest.count i = votes i + (rest.count i + 1) := by omega
      rw [this]
    · rw [if_neg hi]
      have hc : (a :: rest).count i = rest.count i := by
        simp [List.count_cons, hi]
      rw [hc]

/-- Helper: a scanl of sums started at a is the scanl started at 0 shifted
by a. -/
theorem scanl_add_shift (a : Nat) (l : List Nat) :
    List.scanl (· + ·) a l = (List.scanl (· + ·) 0 l).map (a + ·) := by
  induction l generalizing a with
  | nil => simp [List.scanl]
  | cons x l ih =>
    rw [List.scanl_cons, List.scanl_cons]
    simp only [List.singleton_append, List.map_cons]
    have h0 : (0 : Nat) + x = x := by omega
    rw [ih (a + x), h0, ih x]
    rw [List.map_map]
    refine congrArg₂ _ (by omega) ?_
    refine List.map_congr_left ?_
    intro b _
    simp
    omega

/-- Helper: entry i of the prefix-sum scanl is the sum of the first i
elements, for i within range. -/
theorem scanl_zero_getD (l : List Nat) :
    ∀ i, i ≤ l.length → (List.scanl (· + ·) 0 l).getD i 0 = (l.take i).sum := by
  induction l with
  | nil =>
    intro i hi
    have h0 : i = 0 := by simpa using hi
    subst h0
    simp [List.scanl]
  | cons x l ih =>
    intro i hi
    rw [List.scanl_cons]
    simp only [List.singleton_append]
    have h0 : (0 : Nat) + x = x := by omega
    rw [h0]
    cases i with
    | zero => simp
    | succ j =>
      have hj : j ≤ l.length := by simpa using hi
      have hlen : j < (List.scanl (· + ·) 0 l).length := by
        rw [List.length_scanl]; omega
      rw [List.getD_cons_succ, scanl_add_shift x l]
      rw [List.getD_eq_getElem?_getD, List.getElem?_map]
      rw [List.getElem?_eq_getElem hlen]
      simp only [Option.map_some', Option.getD_some]
      rw [← List.getD_eq_getElem (List.scanl (· + ·) 0 l) 0 hlen, ih j hj]
      simp [List.sum_cons]

/-- Helper: out-of-range entries of the prefix-sum scanl default to 0. -/
theorem scanl_zero_getD_of_gt (l : List Nat) (i : Nat) (hi : l.length < i) :
    (List.scanl (· + ·) 0 l).getD i 0 = 0 := by
  apply List.getD_eq_default
  rw [List.length_scanl]
  omega

/-- Helper: consecutive differences of the prefix-sum scanl are the list
elements (in range) or 0 (out of range), hence bounded by any bound on the
elements. -/
theorem scanl_diff_le (l : List Nat) (B : Nat) (hB : ∀ s ∈ l, s ≤ B) (i : Nat) :
    (List.scanl (· + ·) 0 l).getD (i + 1) 0 - (List.scanl (· + ·) 0 l).getD i 0 ≤ B := by
  by_cases hi : i < l.length
  · rw [scanl_zero_getD l i (by omega), scanl_zero_getD l (i + 1) (by omega)]
    have hsum : (l.take (i + 1)).sum = (l.take i).sum + l[i] := List.sum_take_succ l i hi
    have hmem : l[i] ∈ l := List.getElem_mem hi
    have := hB _ hmem
    omega
  · by_cases hi2 : i = l.length
    · rw [scanl_zero_getD_of_gt l (i + 1) (by omega)]
      omega
    · rw [scanl_zero_getD_of_gt l (i + 1) (by omega), scanl_zero_getD_of_gt l i (by omega)]
      omega

/-- Helper: the consecutive difference of the prefix sums over positions
i, i+1 with i in range is the i-th list element. -/
theorem scanl_diff_eq (l : List Nat) (i : Nat) (hi : i < l.length) :
    (List.scanl (· + ·) 0 l).getD (i + 1) 0 - (List.scanl (· + ·) 0 l).getD i 0 =
      l.getD i 0 := by
  rw [scanl_zero_getD l i (by omega), scanl_zero_getD l (i + 1) (by omega)]
  have hsum : (l.take (i + 1)).sum = (l.take i).sum + l[i] := List.sum_take_succ l i hi
  rw [List.getD_eq_getElem l 0 hi]
  omega

/-- Helper: in-range getD through a map that adds a constant. -/
theorem getD_map_add (c : Nat) (l : List Nat) (j : Nat) (hj : j < l.length) :
    (l.map (c + ·)).getD j 0 = c + l.getD j 0 := by
  rw [List.getD_eq_getElem?_getD, List.getElem?_map, List.getElem?_eq_getElem hj,
    List.getD_eq_getElem?_getD l, List.getElem?_eq_getElem hj]
  simp

/-- Helper: the first entry of a scanl is its initial accumulator. -/
theorem scanl_getD_zero (f : Nat → Nat → Nat) (b : Nat) (l : List Nat) :
    (List.scanl f b l).getD 0 0 = b := by
  cases l <;> simp [List.scanl]

/-- Helper: extracting the block between consecutive prefix-sum offsets
from a concatenation of blocks recovers the block. -/
theorem leaf_slab_flatten (LS : List (List Nat)) :
    ∀ l, l < LS.length →
      leaf_slab LS.flatten (List.scanl (· + ·) 0 (LS.map List.length)) l = LS.getD l [] := by
  induction LS with
  | nil => intro l hl; simp at hl
  | cons L rest ih =>
    intro l hl
    rw [List.map_cons, List.scanl_cons]
    simp only [List.singleton_append]
    have h0 : (0 : Nat) + L.length = L.length := by omega
    rw [h0, scanl_add_shift L.length (rest.map List.length)]
    have hS0len : (List.scanl (· + ·) 0 (rest.map List.length)).length = rest.length + 1 := by
      rw [List.length_scanl, List.length_map]
    cases l with
    | zero =>
      simp only [leaf_slab, List.getD_cons_zero, List.getD_cons_succ]
      rw [getD_map_add L.length _ 0 (by omega), scanl_getD_zero]
      simp only [Nat.add_zero, Nat.sub_zero, List.flatten_cons, List.drop_zero,
        List.getD_cons_zero]
      exact List.take_left L rest.flatten
    | succ j =>
      have hj : j < rest.length := by simpa using hl
      simp only [leaf_slab, List.getD_cons_succ, List.flatten_cons]
      rw [getD_map_add L.length _ j (by omega), getD_map_add L.length _ (j + 1) (by omega)]
      have hdiff : L.length + (List.scanl (· + ·) 0 (rest.map List.length)).getD (j + 1) 0 -
          (L.length + (List.scanl (· + ·) 0 (rest.map List.length)).getD j 0) =
          (List.scanl (· + ·) 0 (rest.map List.length)).getD (j + 1) 0 -
            (List.scanl (· + ·) 0 (rest.map List.length)).getD j 0 := by omega
      rw [hdiff]
      have hdrop : (L ++ rest.flatten).drop
          (L.length + (List.scanl (· + ·) 0 (rest.map List.length)).getD j 0) =
          rest.flatten.drop ((List.scanl (· + ·) 0 (rest.map List.length)).getD j 0) := by
        rw [List.drop_append]
      rw [hdrop]
      have := ih j hj
      simpa [leaf_slab] using this

/-- Helper: in-range getD of a rational-valued map. -/
theorem getD_map_rat (f : Nat → ℚ) (l : List Nat) (j : Nat) (hj : j < l.length) :
    (l.map f).getD j 0 = f (l.getD j 0) := by
  rw [List.getD_eq_getElem?_getD, List.getElem?_map, List.getElem?_eq_getElem hj,
    List.getD_eq_getElem?_getD l, List.getElem?_eq_getElem hj]
  simp

/-- Helper: the last element of the first k elements (1 ≤ k ≤ length) is
element k - 1. -/
theorem take_getLastD (l : List Nat) (k : Nat) (hk1 : 1 ≤ k) (hk2 : k ≤ l.length) :
    (l.take k).getLastD 0 = l.getD (k - 1) 0 := by
  have hlen : (l.take k).length = k := by
    rw [List.length_take]; omega
  rw [List.getLastD_eq_getLast?, List.getLast?_eq_getElem?, hlen]
  rw [List.getElem?_take, if_pos (by omega), List.getD_eq_getElem?_getD]

/-- Helper: the head of the elements from position k on (k < length) is
element k. -/
theorem drop_headD (l : List Nat) (k : Nat) (hk : k < l.length) :
    (l.drop k).headD 0 = l.getD k 0 := by
  rw [List.headD_eq_head?, List.head?_drop, List.getD_eq_getElem?_getD]

/-- Helper: in a list pairwise ordered by the values of f, every element's
value is at most the value of the last element. -/
theorem pairwise_le_getLastD (f : Nat → ℚ) (l : List Nat)
    (h : l.Pairwise (fun i1 i2 => f i1 ≤ f i2)) :
    ∀ p ∈ l, f p ≤ f (l.getLastD 0) := by
  induction l with
  | nil => intro p hp; simp at hp
  | cons a t ih =>
    intro p hp
    rcases List.mem_cons.mp hp with hpa | hpt
    · subst hpa
      cases t with
      | nil => simp
      | cons b t2 =>
        have hlast : (p :: b :: t2).getLastD 0 = (b :: t2).getLastD 0 := by
          simp [List.getLastD]
        rw [hlast]
        have hmem : (b :: t2).getLastD 0 ∈ b :: t2 := by
          rw [List.getLastD_eq_getLast?, List.getLast?_eq_getLast _ (by simp)]
          simp [List.getLast_mem]
        exact (List.pairwise_cons.mp h).1 _ hmem
    · cases t with
      | nil => simp at hpt
      | cons b t2 =>
        have hlast : (a :: b :: t2).getLastD 0 = (b :: t2).getLastD 0 := by
          simp [List.getLastD]
        rw [hlast]
        exact ih (List.pairwise_cons.mp h).2 p hpt

/-- The per-leaf blocks produced by grow_subtree have exactly the lengths
computed by count_leaf_sizes: the left recursion receives the first
n - n/2 positions, the right one the last n/2. -/
theorem grow_subtree_go_leaf_sizes (proj : Nat → Nat → ℚ) :
    ∀ (r lvl i : Nat) (ind : List Nat) (sp : Nat → ℚ),
      ((grow_subtree_go proj r lvl i ind sp).1).map List.length =
        count_leaf_sizes_go ind.length r := by
  intro r
  induction r with
  | zero =>
    intro lvl i ind sp
    simp [grow_subtree_go, count_leaf_sizes_go]
  | succ r ih =>
    intro lvl i ind sp
    simp only [grow_subtree_go, count_leaf_sizes_go]
    rw [List.map_append, ih, ih]
    have hsl : (List.insertionSort
        (fun i1 i2 => proj lvl i1 ≤ proj lvl i2) ind).length = ind.length :=
      List.length_insertionSort _ ind
    have hta : ((List.insertionSort (fun i1 i2 => proj lvl i1 ≤ proj lvl i2) ind).take
        (ind.length - ind.length / 2)).length = ind.length - ind.length / 2 := by
      rw [List.length_take, hsl]; omega
    have hdr : ((List.insertionSort (fun i1 i2 => proj lvl i1 ≤ proj lvl i2) ind).drop
        (ind.length - ind.length / 2)).length = ind.length / 2 := by
      rw [List.length_drop, hsl]; omega
    rw [hta, hdr]

/-- The concatenation of the leaf blocks produced by grow_subtree is a
permutation of the index range it was given. -/
theorem grow_subtree_go_perm (proj : Nat → Nat → ℚ) :
    ∀ (r lvl i : Nat) (ind : List Nat) (sp : Nat → ℚ),
      ((grow_subtree_go proj r lvl i ind sp).1).flatten.Perm ind := by
  intro r
  induction r with
  | zero =>
    intro lvl i ind sp
    simp [grow_subtree_go]
  | succ r ih =>
    intro lvl i ind sp
    simp only [grow_subtree_go]
    rw [List.flatten_append]
    refine ((ih _ _ _ _).append (ih _ _ _ _)).trans ?_
    rw [List.take_append_drop]
    exact List.perm_insertionSort _ ind

/-- Every trace record of grow_subtree carries its points sorted by their
projected coordinate at its level, and its stored split value is the one
recomputed by split_formula. -/
theorem grow_subtree_go_recs (proj : Nat → Nat → ℚ) :
    ∀ (r lvl i : Nat) (ind : List Nat) (sp : Nat → ℚ),
      ∀ rc ∈ (grow_subtree_go proj r lvl i ind sp).2.2,
        rc.pts.Pairwise (fun i1 i2 => proj rc.level i1 ≤ proj rc.level i2) ∧
        rc.split = split_formula proj rc := by
  intro r
  induction r with
  | zero =>
    intro lvl i ind sp rc hrc
    simp [grow_subtree_go] at hrc
  | succ r ih =>
    intro lvl i ind sp rc hrc
    simp only [grow_subtree_go, List.mem_cons, List.mem_append] at hrc
    rcases hrc with hhead | hl | hr
    · subst hhead
      constructor
      · haveI : IsTotal Nat (fun i1 i2 => proj lvl i1 ≤ proj lvl i2) :=
          ⟨fun a b => le_total _ _⟩
        haveI : IsTrans Nat (fun i1 i2 => proj lvl i1 ≤ proj lvl i2) :=
          ⟨fun _ _ _ hab hbc => le_trans hab hbc⟩
        exact List.sorted_insertionSort _ ind
      · have hsl : (List.insertionSort
            (fun i1 i2 => proj lvl i1 ≤ proj lvl i2) ind).length = ind.length :=
          List.length_insertionSort _ ind
        simp only [split_formula, NodeRec.leftPts, NodeRec.rightPts, hsl]
    · exact ih _ _ _ _ rc hl
    · exact ih _ _ _ _ rc hr

/-- Helper: length of the leaf-size list at r remaining levels is 2 ^ r. -/
theorem count_leaf_sizes_go_length (r : Nat) : ∀ n, (count_leaf_sizes_go n r).length = 2 ^ r := by
  induction r with
  | zero => intro n; simp [count_leaf_sizes_go]
  | succ r ih =>
    intro n
    simp only [count_leaf_sizes_go, List.length_append, ih]
    rw [pow_succ]
    omega

/-- Helper: every leaf size at r remaining levels over n points is at most
the rounded-up quotient: 2 ^ r * s ≤ n + 2 ^ r - 1. -/
theorem count_leaf_sizes_go_le (r : Nat) :
    ∀ n, ∀ s ∈ count_leaf_sizes_go n r, 2 ^ r * s ≤ n + 2 ^ r - 1 := by
  induction r with
  | zero =>
    intro n s hs
    simp [count_leaf_sizes_go] at hs
    omega
  | succ r ih =>
    intro n s hs
    simp only [count_leaf_sizes_go, List.mem_append] at hs
    have hpow : 1 ≤ 2 ^ r := Nat.one_le_two_pow
    rcases hs with hs | hs
    · have h1 := ih (n - n / 2) s hs
      have h2 : 2 ^ (r + 1) * s = 2 * (2 ^ r * s) := by rw [pow_succ]; ring
      generalize hy : 2 ^ r * s = y at h1
      rw [h2, hy, pow_succ]
      omega
    · have h1 := ih (n / 2) s hs
      have h2 : 2 ^ (r + 1) * s = 2 * (2 ^ r * s) := by rw [pow_succ]; ring
      generalize hy : 2 ^ r * s = y at h1
      rw [h2, hy, pow_succ]
      omega

/-- Helper: in-range getD through a map taking lengths. -/
theorem getD_map_length (LS : List (List Nat)) (j : Nat) (hj : j < LS.length) :
    (LS.map List.length).getD j 0 = (LS.getD j []).length := by
  rw [List.getD_eq_getElem?_getD, List.getElem?_map, List.getElem?_eq_getElem hj,
    List.getD_eq_getElem?_getD LS, List.getElem?_eq_getElem hj]
  simp

/-- C2: after grow, every tree's concatenated leaf vector is a permutation
of 0..n_samples-1; every internal node with m points sends the first
ceil(m/2) = (m+1)/2 of them to its left child and the last floor(m/2) to
its right child; and for every leaf ordinal below 2^depth the slab of the
concatenated leaves between consecutive leaf_first_indices offsets is
exactly that leaf, whose size is the difference of the offsets.  The offset
array is computed from n_samples and depth alone, so the same array is
valid for every tree (the statement quantifies over the projections). -/
theorem C2_tree_shape (proj : Nat → Nat → ℚ) (depth n : Nat) :
    ((grow_tree proj depth n).1.flatten).Perm (List.range n) ∧
    (∀ rc ∈ (grow_tree proj depth n).2.2,
      rc.leftPts.length = (rc.pts.length + 1) / 2 ∧
      rc.rightPts.length = rc.pts.length / 2) ∧
    (∀ l, l < 2 ^ depth →
      leaf_slab ((grow_tree proj depth n).1.flatten) (count_first_leaf_indices n depth) l =
        (grow_tree proj depth n).1.getD l [] ∧
      (leaf_slab ((grow_tree proj depth n).1.flatten)
          (count_first_leaf_indices n depth) l).length =
        (count_first_leaf_indices n depth).getD (l + 1) 0 -
          (count_first_leaf_indices n depth).getD l 0) := by
  have hgt : grow_tree proj depth n =
      grow_subtree_go proj depth 0 0 (List.range n) (fun _ => 0) := by
    simp [grow_tree, grow_subtree]
  have hsizes : ((grow_tree proj depth n).1).map List.length =
      count_leaf_sizes n 0 depth := by
    rw [hgt, count_leaf_sizes, Nat.sub_zero]
    have := grow_subtree_go_leaf_sizes proj depth 0 0 (List.range n) (fun _ => 0)
    simpa [List.length_range] using this
  have hlen : (grow_tree proj depth n).1.length = 2 ^ depth := by
    have h1 := congrArg List.length hsizes
    rw [List.length_map] at h1
    rw [h1, count_leaf_sizes, Nat.sub_zero, count_leaf_sizes_go_length]
  refine ⟨?_, ?_, ?_⟩
  · rw [hgt]
    exact grow_subtree_go_perm proj depth 0 0 (List.range n) (fun _ => 0)
  · intro rc _hrc
    constructor
    · simp only [NodeRec.leftPts, List.length_take]
      omega
    · simp only [NodeRec.rightPts, List.length_drop]
      omega
  · intro l hl
    have hl2 : l < (grow_tree proj depth n).1.length := by rw [hlen]; exact hl
    have hslab := leaf_slab_flatten (grow_tree proj depth n).1 l hl2
    rw [hsizes] at hslab
    have hslab2 : leaf_slab ((grow_tree proj depth n).1.flatten)
        (count_first_leaf_indices n depth) l = (grow_tree proj depth n).1.getD l [] := by
      simpa [count_first_leaf_indices] using hslab
    refine ⟨hslab2, ?_⟩
    rw [hslab2]
    have hls : l < (count_leaf_sizes n 0 depth).length := by
      rw [count_leaf_sizes, Nat.sub_zero, count_leaf_sizes_go_length]; exact hl
    have hdiff := scanl_diff_eq (count_leaf_sizes n 0 depth) l hls
    rw [count_first_leaf_indices, hdiff, ← hsizes, getD_map_length _ _ hl2]

/-- C1: at every internal node reached during grow that holds at least one
point, the stored split value follows the median rule on the projected
coordinates at that node's level: for an odd count m it is the
(ceil(m/2))-th smallest projected value (index m/2 of the ascending value
list), for an even count it is the mean of the largest left-child value
(index m/2 - 1) and the smallest right-child value (index m/2); and every
point handed to the left child, hence every point of the left subtree, has
projected coordinate at most the split value. -/
theorem C1_median_split (proj : Nat → Nat → ℚ) (depth n : Nat) :
    ∀ rc ∈ (grow_tree proj depth n).2.2, rc.pts ≠ [] →
      (rc.pts.length % 2 = 1 →
        rc.split = (List.insertionSort (· ≤ ·) (rc.pts.map (proj rc.level))).getD
          (rc.pts.length / 2) 0) ∧
      (rc.pts.length % 2 = 0 →
        rc.split = ((List.insertionSort (· ≤ ·) (rc.pts.map (proj rc.level))).getD
            (rc.pts.length / 2 - 1) 0 +
          (List.insertionSort (· ≤ ·) (rc.pts.map (proj rc.level))).getD
            (rc.pts.length / 2) 0) / 2) ∧
      (∀ p ∈ rc.leftPts, proj rc.level p ≤ rc.split) := by
  intro rc hrc hne
  have hgt : grow_tree proj depth n =
      grow_subtree_go proj depth 0 0 (List.range n) (fun _ => 0) := by
    simp [grow_tree, grow_subtree]
  rw [hgt] at hrc
  obtain ⟨hpair, hsplit⟩ :=
    grow_subtree_go_recs proj depth 0 0 (List.range n) (fun _ => 0) rc hrc
  have hm1 : 1 ≤ rc.pts.length := List.length_pos.mpr hne
  have hvals_sorted : (rc.pts.map (proj rc.level)).Sorted (· ≤ ·) :=
    hpair.map _ (fun _ _ h => h)
  have hsort_eq : List.insertionSort (· ≤ ·) (rc.pts.map (proj rc.level)) =
      rc.pts.map (proj rc.level) := hvals_sorted.insertionSort_eq
  have hvals_getD : ∀ j, j < rc.pts.length →
      (List.insertionSort (· ≤ ·) (rc.pts.map (proj rc.level))).getD j 0 =
        proj rc.level (rc.pts.getD j 0) := by
    intro j hj
    rw [hsort_eq]
    exact getD_map_rat _ _ _ hj
  have hkodd : rc.pts.length % 2 = 1 →
      rc.pts.length - rc.pts.length / 2 - 1 = rc.pts.length / 2 := by omega
  have hkeven : rc.pts.length % 2 = 0 →
      rc.pts.length - rc.pts.length / 2 - 1 = rc.pts.length / 2 - 1 := by omega
  have hleft_last : rc.leftPts.getLastD 0 =
      rc.pts.getD (rc.pts.length - rc.pts.length / 2 - 1) 0 := by
    rw [NodeRec.leftPts, take_getLastD rc.pts _ (by omega) (by omega)]
  have hright_head : rc.pts.length % 2 = 0 → rc.rightPts.headD 0 =
      rc.pts.getD (rc.pts.length / 2) 0 := by
    intro heven
    have hk : rc.pts.length - rc.pts.length / 2 = rc.pts.length / 2 := by omega
    rw [NodeRec.rightPts, hk, drop_headD rc.pts _ (by omega)]
  refine ⟨?_, ?_, ?_⟩
  · intro hodd
    rw [hsplit, split_formula, if_pos hodd, hleft_last, hkodd hodd,
      hvals_getD _ (by omega)]
  · intro heven
    rw [hsplit, split_formula, if_neg (by omega), hleft_last, hkeven heven,
      hright_head heven, hvals_getD _ (by omega), hvals_getD _ (by omega)]
    ring
  · intro p hp
    have hpair_left : rc.leftPts.Pairwise
        (fun i1 i2 => proj rc.level i1 ≤ proj rc.level i2) :=
      List.Pairwise.sublist (List.take_sublist _ _) hpair
    have hble := pairwise_le_getLastD (proj rc.level) rc.leftPts hpair_left p hp
    rcases Nat.even_or_odd rc.pts.length with heven | hodd
    · have heven2 : rc.pts.length % 2 = 0 := Nat.even_iff.mp heven
      rw [hsplit, split_formula, if_neg (by omega)]
      have hAB : proj rc.level (rc.leftPts.getLastD 0) ≤
          proj rc.level (rc.rightPts.headD 0) := by
        rw [hleft_last, hright_head heven2, hkeven heven2]
        have h1 : rc.pts.length / 2 - 1 < rc.pts.length := by omega
        have h2 : rc.pts.length / 2 < rc.pts.length := by omega
        by_cases hm2 : 2 ≤ rc.pts.length
        · have hlt : rc.pts.length / 2 - 1 < rc.pts.length / 2 := by omega
          have := List.pairwise_iff_getElem.mp hpair
            (rc.pts.length / 2 - 1) (rc.pts.length / 2) h1 h2 hlt
          rw [List.getD_eq_getElem rc.pts 0 h1, List.getD_eq_getElem rc.pts 0 h2]
          exact this
        · omega
      linarith
    · have hodd2 : rc.pts.length % 2 = 1 := Nat.odd_iff.mp hodd
      rw [hsplit, split_formula, if_pos hodd2]
      exact hble

/-- C3: for every query on a grown forest with votes_required at least 1,
the elected list contains exactly the data point indices whose total vote
count over the leaves routed to in all trees reaches votes_required
(each counted once, so the list has no duplicates). -/
theorem C3_elected_votes (F : Forest) (pq : Nat → ℚ) (v : Int) (hv : 1 ≤ v) :
    (∀ idx : Nat, (elected F pq v).count idx =
        if v ≤ ((vote_stream F pq).count idx : Int) then 1 else 0) ∧
    (elected F pq v).Nodup ∧
    (∀ idx : Nat, idx ∈ elected F pq v ↔ v ≤ ((vote_stream F pq).count idx : Int)) := by
  have hmain : ∀ idx : Nat, (elected F pq v).count idx =
      if v ≤ ((vote_stream F pq).count idx : Int) then 1 else 0 := by
    intro idx
    have h0 : ∀ i : Nat, ([] : List Nat).count i = if v ≤ ((fun _ : Nat => 0) i : Int) then 1 else 0 := by
      intro i
      have hne : ¬ v ≤ (0 : Int) := by omega
      simp [hne]
    have := count_votes_loop v hv (vote_stream F pq) (fun _ => 0) [] h0 idx
    simpa [elected, count_votes] using this
  refine ⟨hmain, ?_, ?_⟩
  · rw [List.nodup_iff_count_le_one]
    intro a
    rw [hmain a]
    split <;> omega
  · intro idx
    constructor
    · intro hmem
      have := List.count_pos_iff.mpr hmem
      rw [hmain idx] at this
      by_contra hc
      simp [hc] at this
    · intro hle
      have : 0 < (elected F pq v).count idx := by
        rw [hmain idx, if_pos hle]
        omega
      exact List.count_pos_iff.mp this

/-- Helper: each fold step of the vote counter appends at most one elected
index, so the elected list grows by at most the stream length. -/
theorem count_votes_length_le (v : Int) (stream : List Nat) :
    ∀ st : (Nat → Nat) × List Nat,
      ((stream.foldl (vote_step v) st).2).length ≤ st.2.length + stream.length := by
  induction stream with
  | nil => intro st; simp
  | cons a rest ih =>
    intro st
    rw [List.foldl_cons]
    have hstep : ((vote_step v st a).2).length ≤ st.2.length + 1 := by
      simp only [vote_step]
      split <;> simp
    have := ih (vote_step v st a)
    simp only [List.length_cons]
    omega

/-- Helper: a leaf slab is no longer than the difference of its two
offsets. -/
theorem leaf_slab_length_le (ind lfi : List Nat) (l : Nat) :
    (leaf_slab ind lfi l).length ≤ lfi.getD (l + 1) 0 - lfi.getD l 0 := by
  simp only [leaf_slab, List.length_take, List.length_drop]
  omega

/-- Helper: every leaf size of the median-split recursion is at most
n / 2 ^ depth + 1. -/
theorem count_leaf_sizes_le_div (n depth : Nat) :
    ∀ s ∈ count_leaf_sizes n 0 depth, s ≤ n / 2 ^ depth + 1 := by
  intro s hs
  rw [count_leaf_sizes, Nat.sub_zero] at hs
  have h := count_leaf_sizes_go_le depth n s hs
  have hpow : 1 ≤ 2 ^ depth := Nat.one_le_two_pow
  by_contra hc
  push_neg at hc
  have hq : n / 2 ^ depth + 2 ≤ s := by omega
  have h2 : 2 ^ depth * (n / 2 ^ depth + 2) ≤ 2 ^ depth * s := Nat.mul_le_mul_left _ hq
  rw [Nat.mul_add] at h2
  have hdm := Nat.div_add_mod n (2 ^ depth)
  have hmod : n % 2 ^ depth < 2 ^ depth := Nat.mod_lt _ (by omega)
  generalize hA : (2 : Nat) ^ depth = A at *
  generalize hz : A * (n / A) = z at *
  generalize hy : A * s = y at *
  omega

/-- Helper: the vote stream visits one leaf slab per tree, so its length is
at most n_trees times any bound on the slab sizes. -/
theorem vote_stream_length_le (F : Forest) (pq : Nat → ℚ) (B : Nat)
    (hB : ∀ l : Nat,
      F.leaf_first_indices.getD (l + 1) 0 - F.leaf_first_indices.getD l 0 ≤ B) :
    (vote_stream F pq).length ≤ F.n_trees * B := by
  rw [vote_stream, List.length_flatMap]
  have hbound : ∀ x ∈ (List.range F.n_trees).map
      (List.length ∘ fun t => leaf_slab (F.tree_leaves t) F.leaf_first_indices
        (found_leaf pq (F.split_points t) F.depth t)), x ≤ B := by
    intro x hx
    obtain ⟨t, _ht, hxe⟩ := List.mem_map.mp hx
    rw [← hxe]
    exact le_trans (leaf_slab_length_le _ _ _) (hB _)
  have := List.sum_le_card_nsmul _ B hbound
  simpa [List.length_map, List.length_range, Nat.mul_comm] using this

/-- C10: for every query on a grown forest, the number of elected
candidates never exceeds n_trees * (n_samples / 2 ^ depth + 1), the
allocated capacity of the elected buffer: each tree contributes one leaf
slab whose size is bounded by the maximal leaf size of the left-heavy
median recursion, and each stream element appends at most one candidate. -/
theorem C10_elected_capacity (proj : Nat → Nat → Nat → ℚ)
    (n_trees depth n dim : Nat) (pq : Nat → ℚ) (v : Int) (hv : 1 ≤ v) :
    (elected (growForest proj n_trees depth n dim) pq v).length ≤
      n_trees * (n / 2 ^ depth + 1) := by
  have _ := hv
  have hB : ∀ l : Nat,
      (growForest proj n_trees depth n dim).leaf_first_indices.getD (l + 1) 0 -
        (growForest proj n_trees depth n dim).leaf_first_indices.getD l 0 ≤
        n / 2 ^ depth + 1 := by
    intro l
    exact scanl_diff_le _ _ (count_leaf_sizes_le_div n depth) l
  have hstream := vote_stream_length_le (growForest proj n_trees depth n dim) pq _ hB
  have hlen := count_votes_length_le v
    (vote_stream (growForest proj n_trees depth n dim) pq) (fun _ => 0, [])
  simp only [List.length_nil, Nat.zero_add] at hlen
  calc (elected (growForest proj n_trees depth n dim) pq v).length
      ≤ (vote_stream (growForest proj n_trees depth n dim) pq).length := hlen
    _ ≤ n_trees * (n / 2 ^ depth + 1) := hstream

/-- Helper: in-range getD through a map over an initial segment. -/
theorem getD_map_range {α : Type} (f : Nat → α) (d : α) (m j : Nat) (hj : j < m) :
    ((List.range m).map f).getD j d = f j := by
  have hj2 : j < ((List.range m).map f).length := by
    rw [List.length_map, List.length_range]; exact hj
  rw [List.getD_eq_getElem _ _ hj2]
  simp

/-- Helper: reading every position of a list through getD rebuilds the
list. -/
theorem map_getD_range (l : List Nat) :
    (List.range l.length).map (fun i => l.getD i 0) = l := by
  apply List.ext_getElem
  · rw [List.length_map, List.length_range]
  · intro i h1 h2
    simp [List.getElem?_eq_getElem h2]

/-- Helper: in-range getD of a take. -/
theorem getD_take {α : Type} (l : List α) (d : α) (k i : Nat) (hik : i < k)
    (hil : i < l.length) :
    (l.take k).getD i d = l.getD i d := by
  rw [List.getD_eq_getElem?_getD, List.getElem?_take, if_pos hik,
    List.getD_eq_getElem?_getD]

/-- Helper: consing the element at position i onto the list with position i
erased is a permutation of the list. -/
theorem getD_cons_eraseIdx_perm (l : List Nat) :
    ∀ i, i < l.length → ((l.getD i 0) :: l.eraseIdx i).Perm l := by
  induction l with
  | nil => intro i hi; simp at hi
  | cons a t ih =>
    intro i hi
    cases i with
    | zero => simp
    | succ j =>
      have hj : j < t.length := by simpa using hi
      have heq : (a :: t).getD (j + 1) 0 :: (a :: t).eraseIdx (j + 1) =
          t.getD j 0 :: a :: t.eraseIdx j := by
        simp [List.eraseIdx_cons_succ, List.getD_cons_succ]
      rw [heq]
      have hswap : (t.getD j 0 :: a :: t.eraseIdx j).Perm
          (a :: t.getD j 0 :: t.eraseIdx j) := List.Perm.swap a (t.getD j 0) _
      exact hswap.trans ((ih j hj).cons a)

/-- min_coeff_aux either keeps the incoming best index (when no later value
is strictly smaller) or returns the position of a minimal later value. -/
theorem min_coeff_aux_spec :
    ∀ (ds : List ℚ) (bv : ℚ) (bi cur : Nat),
      (min_coeff_aux bv bi cur ds = bi ∧ ∀ d ∈ ds, bv ≤ d) ∨
      (∃ j, j < ds.length ∧ min_coeff_aux bv bi cur ds = cur + j ∧
        ds.getD j 0 ≤ bv ∧ ∀ d ∈ ds, ds.getD j 0 ≤ d) := by
  intro ds
  induction ds with
  | nil =>
    intro bv bi cur
    left
    exact ⟨rfl, by simp⟩
  | cons d t ih =>
    intro bv bi cur
    by_cases hlt : d < bv
    · right
      rw [min_coeff_aux, if_pos hlt]
      rcases ih d cur (cur + 1) with ⟨heq, hall⟩ | ⟨j, hj, heq, hle, hall⟩
      · refine ⟨0, by simp, by simpa using heq, by simpa using le_of_lt hlt, ?_⟩
        intro e he
        rcases List.mem_cons.mp he with rfl | het
        · simp
        · simpa using hall e het
      · refine ⟨j + 1, by simpa using Nat.succ_lt_succ hj, by rw [heq]; omega, ?_, ?_⟩
        · rw [List.getD_cons_succ]
          exact le_trans hle (le_of_lt hlt)
        · intro e he
          rw [List.getD_cons_succ]
          rcases List.mem_cons.mp he with rfl | het
          · exact hle
          · exact hall e het
    · rw [min_coeff_aux, if_neg hlt]
      push_neg at hlt
      rcases ih bv bi (cur + 1) with ⟨heq, hall⟩ | ⟨j, hj, heq, hle, hall⟩
      · left
        refine ⟨heq, ?_⟩
        intro e he
        rcases List.mem_cons.mp he with rfl | het
        · exact hlt
        · exact hall e het
      · right
        refine ⟨j + 1, by simpa using Nat.succ_lt_succ hj, by rw [heq]; omega, ?_, ?_⟩
        · rw [List.getD_cons_succ]
          exact hle
        · intro e he
          rw [List.getD_cons_succ]
          rcases List.mem_cons.mp he with rfl | het
          · exact le_trans hle hlt
          · exact hall e het

/-- min_coeff_index of a nonempty list is an in-range position of a
minimal value (Eigen minCoeff semantics: first strict minimum). -/
theorem min_coeff_index_spec (ds : List ℚ) (hne : ds ≠ []) :
    min_coeff_index ds < ds.length ∧
    ∀ j, j < ds.length → ds.getD (min_coeff_index ds) 0 ≤ ds.getD j 0 := by
  cases ds with
  | nil => simp at hne
  | cons d t =>
    rw [min_coeff_index]
    rcases min_coeff_aux_spec t d 0 1 with ⟨heq, hall⟩ | ⟨j, hj, heq, hle, hall⟩
    · rw [heq]
      refine ⟨by simp, ?_⟩
      intro j hj
      rw [List.getD_cons_zero]
      cases j with
      | zero => simp
      | succ j2 =>
        have hj2 : j2 < t.length := by simpa using hj
        rw [List.getD_cons_succ]
        exact hall _ (by rw [List.getD_eq_getElem t 0 hj2]; exact List.getElem_mem hj2)
    · rw [heq]
      have h1j : 1 + j = j + 1 := by omega
      refine ⟨by simp; omega, ?_⟩
      intro i hi
      rw [h1j, List.getD_cons_succ]
      cases i with
      | zero =>
        rw [List.getD_cons_zero]
        exact hle
      | succ i2 =>
        have hi2 : i2 < t.length := by simpa using hi
        rw [List.getD_cons_succ]
        exact hall _ (by rw [List.getD_eq_getElem t 0 hi2]; exact List.getElem_mem hi2)

/-- Helper: in-range getD through an arbitrary map. -/
theorem getD_map_gen {α β : Type} (f : α → β) (l : List α) (dA : α) (dB : β)
    (j : Nat) (hj : j < l.length) :
    (l.map f).getD j dB = f (l.getD j dA) := by
  rw [List.getD_eq_getElem?_getD, List.getElem?_map, List.getElem?_eq_getElem hj,
    List.getD_eq_getElem?_getD l, List.getElem?_eq_getElem hj]
  simp

/-- C4: exact_knn with k at least 1 on a candidate list of m elected
indices fills the first min(k, m) output slots with candidate indices in
non-decreasing order of squared Euclidean distance to the query, and these
are the min(k, m) closest candidates (the remaining candidates, collected
in the rest of a permutation of the candidate list, are all at least as
far); the optional distance output holds the square roots of the squared
norms of the returned candidates in the same order and is non-decreasing
on those slots; and every output slot from min(k, m) to k - 1 (all slots
when m = 0) holds the sentinel -1 in both buffers. -/
theorem C4_exact_knn (X : Nat → List ℚ) (q : List ℚ) (indices : List Nat)
    (k : Nat) (hk : 1 ≤ k) :
    (exact_knn X q k indices).length = k ∧
    (∀ i, min k indices.length ≤ i → i < k → (exact_knn X q k indices).getD i 0 = -1) ∧
    (∃ sel rest : List Nat,
      sel.length = min k indices.length ∧
      (∀ i, i < min k indices.length →
        (exact_knn X q k indices).getD i 0 = Int.ofNat (sel.getD i 0)) ∧
      (sel ++ rest).Perm indices ∧
      sel.Pairwise (fun a b => squared_norm (X a) q ≤ squared_norm (X b) q) ∧
      (∀ a ∈ sel, ∀ b ∈ rest, squared_norm (X a) q ≤ squared_norm (X b) q)) ∧
    (∀ i, i < min k indices.length →
      (exact_knn_distances X q k indices).getD i 0 =
        Real.sqrt ((squared_norm (X (((exact_knn X q k indices).getD i 0).toNat)) q : ℚ) : ℝ)) ∧
    (∀ i, min k indices.length ≤ i → i < k →
      (exact_knn_distances X q k indices).getD i 0 = -1) ∧
    (∀ i j, i ≤ j → j < min k indices.length →
      (exact_knn_distances X q k indices).getD i 0 ≤
        (exact_knn_distances X q k indices).getD j 0) := by
  by_cases hm : indices.length = 0
  · have hout : exact_knn X q k indices = List.replicate k (-1) := by
      simp only [exact_knn]
      rw [if_pos hm]
    have hdst : exact_knn_distances X q k indices = List.replicate k (-1) := by
      simp only [exact_knn_distances]
      rw [if_pos hm]
    have hmin : min k indices.length = 0 := by omega
    refine ⟨by simp [hout], ?_, ?_, ?_, ?_, ?_⟩
    · intro i _h1 h2
      rw [hout]
      have hi : i < (List.replicate k (-1 : Int)).length := by simpa using h2
      rw [List.getD_eq_getElem _ _ hi, List.getElem_replicate]
    · refine ⟨[], indices, by simp [hmin], ?_, by simp, by simp, by simp⟩
      intro i hi
      rw [hmin] at hi
      omega
    · intro i hi
      rw [hmin] at hi
      omega
    · intro i _h1 h2
      rw [hdst]
      have hi : i < (List.replicate k (-1 : ℝ)).length := by simpa using h2
      rw [List.getD_eq_getElem _ _ hi, List.getElem_replicate]
    · intro i j _hij hj
      rw [hmin] at hj
      omega
  · have hm1 : 1 ≤ indices.length := by omega
    by_cases hk1 : k = 1
    · -- single linear minimum
      subst hk1
      set dfun : Nat → ℚ := fun i => squared_norm (X (indices.getD i 0)) q with hdfun
      set res : Nat :=
        min_coeff_index ((List.range indices.length).map dfun) with hres
      have hne : (List.range indices.length).map dfun ≠ [] := by
        have hlen0 : ((List.range indices.length).map dfun).length = indices.length := by
          simp
        intro hcon
        rw [hcon] at hlen0
        simp at hlen0
        omega
      have hspec := min_coeff_index_spec _ hne
      have hlenm : ((List.range indices.length).map dfun).length = indices.length := by
        simp
      have hresm : res < indices.length := by
        rw [hres]
        have := hspec.1
        rwa [hlenm] at this
      have hresmin : ∀ j, j < indices.length → dfun res ≤ dfun j := by
        intro j hj
        have := hspec.2 (min_coeff_index ((List.range indices.length).map dfun))
          (by rw [hlenm]; exact hresm)
        have h2 := hspec.2 j (by rw [hlenm]; exact hj)
        rw [getD_map_range dfun 0 _ _ hresm, getD_map_range dfun 0 _ _ hj] at h2
        exact h2
      have hout : exact_knn X q 1 indices =
          [Int.ofNat (indices.getD res 0)] := by
        simp only [exact_knn]
        rw [if_neg hm]
        rfl
      have hdst : exact_knn_distances X q 1 indices =
          [Real.sqrt ((dfun res : ℚ) : ℝ)] := by
        simp only [exact_knn_distances]
        rw [if_neg hm]
        rfl
      have hmin : min 1 indices.length = 1 := by omega
      refine ⟨by simp [hout], ?_, ?_, ?_, ?_, ?_⟩
      · intro i h1 h2
        rw [hmin] at h1
        omega
      · refine ⟨[indices.getD res 0], indices.eraseIdx res, by simp [hmin], ?_, ?_, ?_, ?_⟩
        · intro i hi
          rw [hmin] at hi
          have hi0 : i = 0 := by omega
          subst hi0
          rw [hout]
          simp
        · simpa using getD_cons_eraseIdx_perm indices res hresm
        · simp
        · intro a ha b hb
          have ha2 : a = indices.getD res 0 := by simpa using ha
          subst ha2
          have hbmem : b ∈ indices := (List.eraseIdx_sublist indices res).mem hb
          obtain ⟨jb, hjb, hbe⟩ := List.mem_iff_getElem.mp hbmem
          have := hresmin jb hjb
          rw [hdfun] at this
          simp only at this
          rw [List.getD_eq_getElem indices 0 hjb] at this
          rw [hbe] at this
          exact this
      · intro i hi
        rw [hmin] at hi
        have hi0 : i = 0 := by omega
        subst hi0
        rw [hout, hdst]
        simp [hdfun]
      · intro i h1 h2
        rw [hmin] at h1
        omega
      · intro i j hij hj
        rw [hmin] at hj
        have : i = 0 ∧ j = 0 := by omega
        rw [this.1, this.2]
    · -- partial sort branch
      set dfun : Nat → ℚ := fun i => squared_norm (X (indices.getD i 0)) q with hdfun
      set idx : List Nat := List.insertionSort (fun i1 i2 => dfun i1 ≤ dfun i2)
        (List.range indices.length) with hidx
      have hperm : idx.Perm (List.range indices.length) :=
        List.perm_insertionSort _ _
      have hlen_idx : idx.length = indices.length := by
        rw [hidx, List.length_insertionSort, List.length_range]
      haveI : IsTotal Nat (fun i1 i2 => dfun i1 ≤ dfun i2) := ⟨fun a b => le_total _ _⟩
      haveI : IsTrans Nat (fun i1 i2 => dfun i1 ≤ dfun i2) :=
        ⟨fun _ _ _ hab hbc => le_trans hab hbc⟩
      have hsorted : idx.Pairwise (fun i1 i2 => dfun i1 ≤ dfun i2) :=
        List.sorted_insertionSort _ _
      have hout : exact_knn X q k indices = (List.range k).map (fun i =>
          if i < indices.length then Int.ofNat (indices.getD (idx.getD i 0) 0) else -1) := by
        rw [hidx, hdfun]
        simp only [exact_knn]
        rw [if_neg hm, if_neg hk1]
      have hdst : exact_knn_distances X q k indices = (List.range k).map (fun i =>
          if i < indices.length then Real.sqrt ((dfun (idx.getD i 0) : ℚ) : ℝ) else -1) := by
        rw [hidx, hdfun]
        simp only [exact_knn_distances]
        rw [if_neg hm, if_neg hk1]
      have hKm : min k indices.length ≤ indices.length := by omega
      have hKk : min k indices.length ≤ k := by omega
      refine ⟨by simp [hout], ?_, ?_, ?_, ?_, ?_⟩
      · intro i h1 h2
        rw [hout, getD_map_range _ 0 k i h2]
        have him : ¬ i < indices.length := by omega
        rw [if_neg him]
      · refine ⟨(idx.take (min k indices.length)).map (fun i => indices.getD i 0),
          (idx.drop (min k indices.length)).map (fun i => indices.getD i 0), ?_, ?_, ?_, ?_, ?_⟩
        · rw [List.length_map, List.length_take, hlen_idx]
          omega
        · intro i hi
          rw [hout, getD_map_range _ 0 k i (by omega), if_pos (by omega)]
          have hi2 : i < (idx.take (min k indices.length)).length := by
            rw [List.length_take, hlen_idx]
            omega
          rw [getD_map_gen (fun i => indices.getD i 0) _ 0 0 i hi2]
          rw [getD_take idx 0 _ i hi (by omega)]
        · have hsplit : (idx.take (min k indices.length)).map (fun i => indices.getD i 0) ++
              (idx.drop (min k indices.length)).map (fun i => indices.getD i 0) =
              idx.map (fun i => indices.getD i 0) := by
            rw [← List.map_append, List.take_append_drop]
          rw [hsplit]
          have := hperm.map (fun i => indices.getD i 0)
          rw [map_getD_range indices] at this
          exact this
        · refine List.Pairwise.map _ ?_
            (List.Pairwise.sublist (List.take_sublist _ _) hsorted)
          intro a b hab
          exact hab
        · intro a ha b hb
          obtain ⟨a0, ha0, hae⟩ := List.mem_map.mp ha
          obtain ⟨b0, hb0, hbe⟩ := List.mem_map.mp hb
          have hidx_split : idx = idx.take (min k indices.length) ++
              idx.drop (min k indices.length) := (List.take_append_drop _ _).symm
          have hpw := hsorted
          rw [hidx_split] at hpw
          have hcross := (List.pairwise_append.mp hpw).2.2 a0 ha0 b0 hb0
          rw [← hae, ← hbe]
          exact hcross
      · intro i hi
        rw [hout, hdst, getD_map_range _ 0 k i (by omega), getD_map_range _ 0 k i (by omega),
          if_pos (by omega), if_pos (by omega)]
        simp [hdfun]
      · intro i h1 h2
        rw [hdst, getD_map_range _ 0 k i h2]
        have him : ¬ i < indices.length := by omega
        rw [if_neg him]
      · intro i j hij hj
        rw [hdst, getD_map_range _ 0 k i (by omega), getD_map_range _ 0 k j (by omega),
          if_pos (by omega), if_pos (by omega)]
        have hmono : dfun (idx.getD i 0) ≤ dfun (idx.getD j 0) := by
          rcases Nat.lt_or_ge i j with hlt | hge
          · have hi_idx : i < idx.length := by rw [hlen_idx]; omega
            have hj_idx : j < idx.length := by rw [hlen_idx]; omega
            have := List.pairwise_iff_getElem.mp hsorted i j hi_idx hj_idx hlt
            rwa [← List.getD_eq_getElem idx 0 hi_idx, ← List.getD_eq_getElem idx 0 hj_idx]
              at this
          · have hij2 : i = j := by omega
            rw [hij2]
        exact Real.sqrt_le_sqrt (by exact_mod_cast hmono)

/-- Helper: reading back as many floats as were written consumes exactly
the written block. -/
theorem readFloats_append (l : List ℚ) (rest : List Token) :
    readFloats l.length (l.map Token.tf ++ rest) = some (l, rest) := by
  induction l with
  | nil => simp [readFloats]
  | cons x t ih =>
    simp [readFloats, readFloat, ih]

/-- Helper: round trip of a Nat written as an int token. -/
theorem toNat_ofNat_eq (n : Nat) : (Int.ofNat n).toNat = n := rfl

/-- Helper: fread of an int from a stream headed by an int token. -/
theorem readInt_cons (z : Int) (s : List Token) : readInt (Token.ti z :: s) = some (z, s) := rfl

/-- Helper: fread of a float from a stream headed by a float token. -/
theorem readFloat_cons (x : ℚ) (s : List Token) : readFloat (Token.tf x :: s) = some (x, s) := rfl

/-- Helper: reading back as many index ints as were written consumes
exactly the written block. -/
theorem readNats_append (l : List Nat) (rest : List Token) :
    readNats l.length ((l.map fun x : Nat => Token.ti (Int.ofNat x)) ++ rest) = some (l, rest) := by
  induction l with
  | nil => simp [readNats]
  | cons x t ih =>
    rw [List.map_cons, List.cons_append, List.length_cons, readNats]
    simp only [readInt, Option.bind_eq_bind, Option.some_bind, ih, toNat_ofNat_eq]

/-- Helper: the tree-leaves reader inverts the tree-leaves writer. -/
theorem readLeaves_append (tl : List (List Nat)) (rest : List Token) :
    readLeaves tl.length
      ((tl.flatMap fun leaves =>
        Token.ti leaves.length :: leaves.map (fun x : Nat => Token.ti (Int.ofNat x))) ++ rest) =
      some (tl, rest) := by
  induction tl with
  | nil => simp [readLeaves]
  | cons L t ih =>
    rw [List.flatMap_cons, List.cons_append, List.length_cons, readLeaves]
    simp only [List.cons_append, List.append_assoc, readInt_cons, Option.bind_eq_bind,
      Option.some_bind, Int.toNat_natCast]
    rw [readNats_append L ((t.flatMap fun leaves =>
      Token.ti leaves.length :: leaves.map (fun x : Nat => Token.ti (Int.ofNat x))) ++ rest)]
    simp only [Option.some_bind, ih]

/-- Helper: the triple reader inverts the triple writer. -/
theorem readTriples_append (trs : List (Nat × Nat × ℚ)) (rest : List Token) :
    readTriples trs.length
      ((trs.flatMap fun tr => [Token.ti tr.1, Token.ti tr.2.1, Token.tf tr.2.2]) ++ rest) =
      some (trs, rest) := by
  induction trs with
  | nil => simp [readTriples]
  | cons tr t ih =>
    rw [List.flatMap_cons, List.length_cons]
    simp only [List.cons_append, List.append_assoc, List.nil_append, readTriples,
      readInt_cons, readFloat_cons, Option.bind_eq_bind, Option.some_bind,
      Int.toNat_natCast, ih]

/-- Helper: the triple reader on exactly the written block. -/
theorem readTriples_exact (trs : List (Nat × Nat × ℚ)) :
    readTriples trs.length
      (trs.flatMap fun tr => [Token.ti tr.1, Token.ti tr.2.1, Token.tf tr.2.2]) =
      some (trs, []) := by
  have := readTriples_append trs []
  simpa using this

/-- Helper: the float reader on exactly the written block. -/
theorem readFloats_exact (l : List ℚ) :
    readFloats l.length (l.map Token.tf) = some (l, []) := by
  have := readFloats_append l []
  simpa using this

/-- Helper: inserting an element strictly below every element of a list
puts it in front. -/
theorem insertTriple_sorted (a : Nat × Nat × ℚ) (l : List (Nat × Nat × ℚ))
    (h : ∀ b ∈ l, triple_lt a b) : insertTriple a l = a :: l := by
  cases l with
  | nil => rfl
  | cons b t =>
    have hb := h b (by simp)
    have hle : tripleLe a b = true := by
      rcases hb with h1 | ⟨h2, h3⟩
      · simp [tripleLe, h1]
      · simp [tripleLe, h2, le_of_lt h3]
    rw [insertTriple, if_pos hle]

/-- Helper: setFromTriplets is the identity on a strictly row-major sorted
triple list. -/
theorem setFromTriplets_sorted (l : List (Nat × Nat × ℚ))
    (h : l.Pairwise triple_lt) : setFromTriplets l = l := by
  induction l with
  | nil => rfl
  | cons a t ih =>
    rw [setFromTriplets, ih (List.pairwise_cons.mp h).2,
      insertTriple_sorted a t (List.pairwise_cons.mp h).1]

/-- C5: save followed by load on an index over the same data matrix
restores n_trees, depth, density, split_points, the per-tree leaf vectors
and the random projection matrix (sparse triples when density < 1, dense
coefficients otherwise) bit-identically, so every subsequent query on the
loaded index returns exactly what the saved index returns.  The size
hypotheses are the invariants grow establishes (n_array = 2^(depth+1),
n_pool = n_trees * depth, array sizes consistent, leaf offset tables
computed from n_samples and depth, triples emitted in strict row-major
order, and the unused matrix representation empty). -/
theorem C5_save_load_roundtrip (M : MrptIndex)
    (hna : M.n_array = 2 ^ (M.depth + 1))
    (hnp : M.n_pool = M.n_trees * M.depth)
    (hsp : M.split_points.length = M.n_array * M.n_trees)
    (htl : M.tree_leaves.length = M.n_trees)
    (hlfa : M.leaf_first_indices_all = count_first_leaf_indices_all M.n_samples M.depth)
    (hlf : M.leaf_first_indices =
      (count_first_leaf_indices_all M.n_samples M.depth).getD M.depth [])
    (hmat : if M.density < 1
      then M.dense_random_matrix = [] ∧ M.sparse_random_matrix.Pairwise triple_lt
      else M.sparse_random_matrix = [] ∧ M.dense_random_matrix.length = M.n_pool * M.dim) :
    load M.n_samples M.dim (save M) = some M ∧
    (∀ M2, load M.n_samples M.dim (save M) = some M2 →
      ∀ (Xd : Nat → List ℚ) (qv : List ℚ) (kk : Nat) (vv : Int),
        queryMrpt M2.toForest M2.matRow Xd qv kk vv =
          queryMrpt M.toForest M.matRow Xd qv kk vv) := by
  have hmain : load M.n_samples M.dim (save M) = some M := by
    obtain ⟨ns, dm, nt, dp, den, np, na, sp, tl, srm, drm, lfa, lfi⟩ := M
    simp only at hna hnp hsp htl hlfa hlf hmat
    subst hna hnp hlfa hlf htl
    simp only [save, load, readInt_cons, readFloat_cons, Int.toNat_natCast,
      List.append_assoc, Option.bind_eq_bind, Option.some_bind]
    by_cases hd : den < 1
    · rw [if_pos hd] at hmat
      obtain ⟨hdrm, hsorted⟩ := hmat
      rw [if_pos hd]
      have hsplen : 2 ^ (dp + 1) * tl.length = sp.length := by omega
      rw [hsplen, readFloats_append sp _]
      simp only [Option.some_bind]
      rw [readLeaves_append tl _]
      simp only [Option.some_bind]
      rw [if_pos hd]
      simp only [readInt_cons, Int.toNat_natCast, Option.some_bind, Option.bind_eq_bind]
      rw [readTriples_exact srm]
      simp only [Option.some_bind]
      rw [setFromTriplets_sorted srm hsorted, hdrm]
    · rw [if_neg hd] at hmat
      obtain ⟨hsrm, hdrm⟩ := hmat
      rw [if_neg hd]
      have hsplen : 2 ^ (dp + 1) * tl.length = sp.length := by omega
      rw [hsplen, readFloats_append sp _]
      simp only [Option.some_bind]
      rw [readLeaves_append tl _]
      simp only [Option.some_bind]
      rw [if_neg hd]
      have hdmlen : tl.length * dp * dm = drm.length := by omega
      rw [hdmlen, readFloats_exact drm]
      simp only [Option.some_bind]
      rw [hsrm]
  refine ⟨hmain, ?_⟩
  intro M2 hM2 Xd qv kk vv
  rw [hmain] at hM2
  have : M2 = M := by
    injection hM2 with h
    exact h.symm
  rw [this]

/-- Helper: with a non-positive vote threshold the crossing test
++votes(idx) == votes_required can never fire, so no candidate is ever
elected. -/
theorem count_votes_nonpos (v : Int) (hv : v ≤ 0) (stream : List Nat) :
    ∀ st : (Nat → Nat) × List Nat,
      ((stream.foldl (vote_step v) st).2) = st.2 := by
  induction stream with
  | nil => intro st; rfl
  | cons a rest ih =>
    intro st
    rw [List.foldl_cons]
    rw [ih (vote_step v st a)]
    simp only [vote_step]
    have : ¬ ((st.1 a + 1 : Nat) : Int) = v := by
      push_cast
      omega
    rw [if_neg this]

/-- Helper: with a non-positive vote threshold the elected list is empty. -/
theorem elected_nonpos (F : Forest) (pq : Nat → ℚ) (v : Int) (hv : v ≤ 0) :
    elected F pq v = [] :=
  count_votes_nonpos v hv (vote_stream F pq) (fun _ => 0, [])

/-- Helper: exact_knn on an empty candidate list writes the sentinel -1
into every slot. -/
theorem exact_knn_nil (X : Nat → List ℚ) (q : List ℚ) (k : Nat) :
    exact_knn X q k [] = List.replicate k (-1) := rfl

/-- Helper: a query whose vote threshold is non-positive elects nobody and
returns all sentinels. -/
theorem queryMrpt_votes_nonpos (F : Forest) (P X : Nat → List ℚ) (q : List ℚ)
    (k : Nat) (v : Int) (hv : v ≤ 0) :
    queryMrpt F P X q k v = List.replicate k (-1) := by
  rw [queryMrpt, elected_nonpos F _ v hv, exact_knn_nil]

/-- C6: get_optimal_parameters returns the first element, in ascending
estimated-query-time order, of the Pareto set whose estimated recall
strictly exceeds target_recall - 1e-4 (it is a member, it exceeds the
threshold, and it is at least as fast as every element exceeding it); when
no element exceeds the threshold it returns the value-initialised record
with n_trees = 0. -/
theorem C6_get_optimal_parameters (opt_pars : List Parameters) (target : ℚ)
    (hsorted : opt_pars.Pairwise
      (fun a b => a.estimated_qtime < b.estimated_qtime)) :
    ((∃ p ∈ opt_pars, p.estimated_recall > target - 1 / 10000) →
      (get_optimal_parameters opt_pars target ∈ opt_pars ∧
        (get_optimal_parameters opt_pars target).estimated_recall > target - 1 / 10000 ∧
        ∀ p ∈ opt_pars, p.estimated_recall > target - 1 / 10000 →
          (get_optimal_parameters opt_pars target).estimated_qtime ≤ p.estimated_qtime)) ∧
    ((∀ p ∈ opt_pars, ¬ p.estimated_recall > target - 1 / 10000) →
      get_optimal_parameters opt_pars target = Parameters.empty) := by
  induction opt_pars with
  | nil =>
    refine ⟨?_, ?_⟩
    · rintro ⟨p, hp, _⟩
      simp at hp
    · intro _
      rfl
  | cons a t ih =>
    have ihs := ih (List.pairwise_cons.mp hsorted).2
    by_cases ha : a.estimated_recall > target - 1 / 10000
    · have hgo : get_optimal_parameters (a :: t) target = a := by
        rw [get_optimal_parameters, List.find?_cons_of_pos _ (by simpa using ha)]
        rfl
      refine ⟨fun _ => ⟨by simp [hgo], by rw [hgo]; exact ha, ?_⟩, ?_⟩
      · intro p hp _hrec
        rw [hgo]
        rcases List.mem_cons.mp hp with rfl | hpt
        · exact le_refl _
        · exact le_of_lt ((List.pairwise_cons.mp hsorted).1 p hpt)
      · intro hall
        exact absurd ha (hall a (by simp))
    · have hgo : get_optimal_parameters (a :: t) target =
          get_optimal_parameters t target := by
        rw [get_optimal_parameters, get_optimal_parameters,
          List.find?_cons_of_neg _ (by simpa using ha)]
      refine ⟨?_, ?_⟩
      · rintro ⟨p, hp, hrec⟩
        rcases List.mem_cons.mp hp with rfl | hpt
        · exact absurd hrec ha
        · have hres := ihs.1 ⟨p, hpt, hrec⟩
          rw [hgo]
          refine ⟨List.mem_cons_of_mem _ hres.1, hres.2.1, ?_⟩
          intro p2 hp2 hrec2
          rcases List.mem_cons.mp hp2 with rfl | hpt2
          · exact absurd hrec2 ha
          · exact hres.2.2 p2 hpt2 hrec2
      · intro hall
        rw [hgo]
        exact ihs.2 fun p hp => hall p (List.mem_cons_of_mem _ hp)

/-- C7 (amended): when the target recall is infeasible (no Pareto element's
estimated recall exceeds target - 1e-4), subset_trees leaves the fresh
second index an empty forest (n_trees = 0) while delete_extra_trees leaves
the tree count of the original forest unchanged (it is not emptied); in
both cases the vote threshold member stays 0, so a subsequent autotuned
query elects nobody and writes the sentinel -1 into all k output slots. -/
theorem C7_infeasible_trim (s : MrptState) (target : ℚ) (k0 : Nat)
    (X : Nat → List ℚ) (q : List ℚ)
    (hinf : ∀ p ∈ s.opt_pars, ¬ p.estimated_recall > target - 1 / 10000)
    (htr : 0 ≤ target) (hv : s.votes = 0) :
    (subset_trees s target (initState s.n_samples s.dim k0)).n_trees = 0 ∧
    (delete_extra_trees s target).n_trees = s.n_trees ∧
    query_auto (subset_trees s target (initState s.n_samples s.dim k0)) X q =
      some (List.replicate k0 (-1)) ∧
    query_auto (delete_extra_trees s target) X q =
      some (List.replicate s.k (-1)) := by
  have hop : get_optimal_parameters s.opt_pars target = Parameters.empty := by
    rw [get_optimal_parameters]
    have hnone : (s.opt_pars.find? fun par =>
        decide (par.estimated_recall > target - 1 / 10000)) = none := by
      rw [List.find?_eq_none]
      intro x hx
      simpa using hinf x hx
    rw [hnone]
    rfl
  have hsub : subset_trees s target (initState s.n_samples s.dim k0) =
      { initState s.n_samples s.dim k0 with
        recall_level := target, optimal_parameters := Parameters.empty } := by
    simp only [subset_trees, hop]
    rfl
  have hdel : delete_extra_trees s target =
      { s with recall_level := target, optimal_parameters := Parameters.empty } := by
    simp only [delete_extra_trees, hop]
    rfl
  have hnlt : ¬ target < 0 := not_lt.mpr htr
  refine ⟨by rw [hsub]; simp [initState], by rw [hdel], ?_, ?_⟩
  · rw [hsub]
    simp only [query_auto, initState]
    rw [if_neg hnlt]
    rw [queryMrpt_votes_nonpos _ _ _ _ _ _ (le_of_eq rfl)]
  · rw [hdel]
    simp only [query_auto]
    rw [if_neg hnlt]
    rw [queryMrpt_votes_nonpos _ _ _ _ _ _ (le_of_eq hv)]

/-- C9 (amended): neither query nor grow performs any input validation;
invalid inputs flow into the normal search path.  In particular an invalid
vote threshold (votes_required ≤ 0, outside [1, n_trees]) is not rejected:
the query runs its projection, routing, voting and exact search and
returns a full buffer of sentinels, the elected set being empty. -/
theorem C9_no_input_validation (F : Forest) (P X : Nat → List ℚ) (q : List ℚ)
    (k : Nat) (v : Int) (hv : v ≤ 0) :
    elected F (mat_vec P q) v = [] ∧
    queryMrpt F P X q k v = List.replicate k (-1) :=
  ⟨elected_nonpos F _ v hv, queryMrpt_votes_nonpos F P X q k v hv⟩

/-- Helper: membership after a set insertion. -/
theorem mem_insert_pars (l : List Parameters) (p x : Parameters) :
    x ∈ insert_pars l p → x ∈ l ∨ x = p := by
  induction l with
  | nil =>
    intro hx
    simp [insert_pars] at hx
    exact Or.inr hx
  | cons q rest ih =>
    intro hx
    rw [insert_pars] at hx
    split at hx
    · rcases List.mem_cons.mp hx with rfl | hx2
      · exact Or.inr rfl
      · exact Or.inl hx2
    · split at hx
      · rcases List.mem_cons.mp hx with rfl | hx2
        · exact Or.inl (by simp)
        · rcases ih hx2 with h | h
          · exact Or.inl (List.mem_cons_of_mem _ h)
          · exact Or.inr h
      · exact Or.inl hx

/-- Helper: inserting into the qtime-ordered set keeps it strictly
ordered (equal qtimes are never inserted: std::set equivalence). -/
theorem insert_pars_pairwise (l : List Parameters) (p : Parameters)
    (h : l.Pairwise (fun a b => a.estimated_qtime < b.estimated_qtime)) :
    (insert_pars l p).Pairwise (fun a b => a.estimated_qtime < b.estimated_qtime) := by
  induction l with
  | nil => simp [insert_pars]
  | cons q rest ih =>
    rw [insert_pars]
    obtain ⟨hq, hrest⟩ := List.pairwise_cons.mp h
    split
    · rw [List.pairwise_cons]
      refine ⟨?_, h⟩
      intro b hb
      rcases List.mem_cons.mp hb with rfl | hb2
      · assumption
      · have := hq b hb2
        next hlt => exact lt_trans hlt this
    · split
      · rw [List.pairwise_cons]
        refine ⟨?_, ih hrest⟩
        intro b hb
        rcases mem_insert_pars rest p b hb with h2 | rfl
        · exact hq b h2
        · assumption
      · exact h

/-- Helper: inserting an element slower than everything present appends it
at the end. -/
theorem insert_pars_append (l : List Parameters) (p : Parameters)
    (h : ∀ a ∈ l, a.estimated_qtime < p.estimated_qtime) :
    insert_pars l p = l ++ [p] := by
  induction l with
  | nil => rfl
  | cons q rest ih =>
    rw [insert_pars]
    have hq := h q (by simp)
    rw [if_neg (by exact lt_asymm hq), if_pos hq]
    rw [ih fun a ha => h a (List.mem_cons_of_mem _ ha)]
    rfl

/-- Helper: the pars set built by the insertion loop is strictly ordered by
estimated query time. -/
theorem foldl_insert_pars_pairwise (cands : List Parameters) :
    ∀ acc : List Parameters,
      acc.Pairwise (fun a b => a.estimated_qtime < b.estimated_qtime) →
      (cands.foldl insert_pars acc).Pairwise
        (fun a b => a.estimated_qtime < b.estimated_qtime) := by
  induction cands with
  | nil => intro acc hacc; exact hacc
  | cons c rest ih =>
    intro acc hacc
    rw [List.foldl_cons]
    exact ih _ (insert_pars_pairwise acc c hacc)

/-- Helper: the head perturbation changes only a recall, so the qtime
order is untouched. -/
theorem perturb_head_pairwise (eps : ℚ) (l : List Parameters)
    (h : l.Pairwise (fun a b => a.estimated_qtime < b.estimated_qtime)) :
    (perturb_head eps l).Pairwise
      (fun a b => a.estimated_qtime < b.estimated_qtime) := by
  cases l with
  | nil => simp [perturb_head]
  | cons p rest =>
    rw [perturb_head, List.pairwise_cons]
    obtain ⟨hp, hrest⟩ := List.pairwise_cons.mp h
    exact ⟨fun b hb => hp b hb, hrest⟩

/-- Helper: the Pareto scan over a strictly qtime-ordered list accumulates
a list on which both the estimated query time and the estimated recall
strictly increase. -/
theorem opt_scan_invariant (l : List Parameters)
    (hl : l.Pairwise (fun a b => a.estimated_qtime < b.estimated_qtime)) :
    ∀ (acc : List Parameters) (best : ℚ),
      acc.Pairwise (fun a b => a.estimated_qtime < b.estimated_qtime ∧
        a.estimated_recall < b.estimated_recall) →
      (∀ a ∈ acc, a.estimated_recall ≤ best) →
      (∀ a ∈ acc, ∀ b ∈ l, a.estimated_qtime < b.estimated_qtime) →
      ((l.foldl
          (fun st par => if par.estimated_recall > st.2
            then (insert_pars st.1 par, par.estimated_recall) else st)
          (acc, best)).1).Pairwise
        (fun a b => a.estimated_qtime < b.estimated_qtime ∧
          a.estimated_recall < b.estimated_recall) := by
  induction l with
  | nil =>
    intro acc best hacc _ _
    exact hacc
  | cons par rest ih =>
    intro acc best hacc hbest hcross
    obtain ⟨hpar, hrest⟩ := List.pairwise_cons.mp hl
    rw [List.foldl_cons]
    by_cases hacc2 : par.estimated_recall > best
    · rw [if_pos hacc2]
      have hins : insert_pars acc par = acc ++ [par] :=
        insert_pars_append acc par fun a ha => hcross a ha par (by simp)
      have hacc3 : (insert_pars acc par).Pairwise
          (fun a b => a.estimated_qtime < b.estimated_qtime ∧
            a.estimated_recall < b.estimated_recall) := by
        rw [hins, List.pairwise_append]
        refine ⟨hacc, by simp, ?_⟩
        intro a ha b hb
        rcases List.mem_singleton.mp hb with rfl
        exact ⟨hcross a ha b (by simp), lt_of_le_of_lt (hbest a ha) hacc2⟩
      refine ih hrest _ _ hacc3 ?_ ?_
      · intro a ha
        rcases mem_insert_pars acc par a ha with h2 | rfl
        · exact le_trans (hbest a h2) (le_of_lt hacc2)
        · exact le_refl _
      · intro a ha b hb
        rcases mem_insert_pars acc par a ha with h2 | rfl
        · exact hcross a h2 b (List.mem_cons_of_mem _ hb)
        · exact hpar b hb
    · rw [if_neg hacc2]
      refine ih hrest _ _ hacc ?_ ?_
      · exact hbest
      · intro a ha b hb
        exact hcross a ha b (List.mem_cons_of_mem _ hb)

/-- C8 (amended): along the opt_pars container computed by fit_times both
estimated_qtime and estimated_recall strictly increase.  opt_pars is the
greedy strictly-improving-recall scan over the pars set, where pars keeps
only the first candidate inserted at each distinct estimated_qtime (the
std::set comparator drops later ties) and the estimated recall of the
fastest record has been perturbed upward before the scan. -/
theorem C8_opt_pars_monotone (recalls qtimes : Nat → Nat → Nat → ℚ)
    (depth_min depth n_trees votes_max : Nat) (eps : ℚ) :
    (fit_times_opt_pars recalls qtimes depth_min depth n_trees votes_max eps).Pairwise
      (fun a b => a.estimated_qtime < b.estimated_qtime ∧
        a.estimated_recall < b.estimated_recall) := by
  have hpars : (pars_of recalls qtimes depth_min depth n_trees votes_max).Pairwise
      (fun a b => a.estimated_qtime < b.estimated_qtime) :=
    foldl_insert_pars_pairwise _ [] (by simp)
  have hpert := perturb_head_pairwise eps _ hpars
  exact opt_scan_invariant _ hpert [] (-1) (by simp) (by simp) (by simp)

/-! Witnesses and counterexamples at concrete inputs.  The rational
arithmetic operations are made locally semireducible so that the kernel can
evaluate the concrete index computations inside decide. -/

section ConcreteEvaluation

attribute [local semireducible] Rat.add Rat.mul Rat.inv Rat.sub Rat.ofScientific

/-- Witness for C1 at the root node of the tree grown over two points. -/
theorem C1_median_split_witness :
    exRec ∈ (grow_tree exProj 1 2).2.2 ∧ exRec.pts ≠ [] ∧
    ((exRec.pts.length % 2 = 1 →
        exRec.split = (List.insertionSort (· ≤ ·) (exRec.pts.map (exProj exRec.level))).getD
          (exRec.pts.length / 2) 0) ∧
      (exRec.pts.length % 2 = 0 →
        exRec.split = ((List.insertionSort (· ≤ ·) (exRec.pts.map (exProj exRec.level))).getD
            (exRec.pts.length / 2 - 1) 0 +
          (List.insertionSort (· ≤ ·) (exRec.pts.map (exProj exRec.level))).getD
            (exRec.pts.length / 2) 0) / 2) ∧
      (∀ p ∈ exRec.leftPts, exProj exRec.level p ≤ exRec.split)) :=
  ⟨by decide, by decide, C1_median_split exProj 1 2 exRec (by decide) (by decide)⟩

/-- Witness for C2: the slab of leaf 0 at a concrete tree. -/
theorem C2_tree_shape_witness :
    (0 : Nat) < 2 ^ 1 ∧
    (leaf_slab ((grow_tree exProj 1 2).1.flatten) (count_first_leaf_indices 2 1) 0 =
        (grow_tree exProj 1 2).1.getD 0 [] ∧
      (leaf_slab ((grow_tree exProj 1 2).1.flatten) (count_first_leaf_indices 2 1) 0).length =
        (count_first_leaf_indices 2 1).getD (0 + 1) 0 -
          (count_first_leaf_indices 2 1).getD 0 0) :=
  ⟨by decide, (C2_tree_shape exProj 1 2).2.2 0 (by decide)⟩

/-- Witness for C3 at a concrete query on the example forest. -/
theorem C3_elected_votes_witness :
    (1 : Int) ≤ 1 ∧
    (elected exF (mat_vec exP [0]) 1).count 0 =
      (if (1 : Int) ≤ ((vote_stream exF (mat_vec exP [0])).count 0 : Int) then 1 else 0) :=
  ⟨by decide, (C3_elected_votes exF (mat_vec exP [0]) 1 (by decide)).1 0⟩

/-- Witness for C4 at a concrete two-candidate search. -/
theorem C4_exact_knn_witness :
    1 ≤ 2 ∧ (exact_knn exX [6] 2 [0, 1]).length = 2 :=
  ⟨by decide, (C4_exact_knn exX [6] [0, 1] 2 (by decide)).1⟩

/-- Witness for C5 at a concrete dense one-tree index. -/
theorem C5_save_load_roundtrip_witness :
    exM.n_array = 2 ^ (exM.depth + 1) ∧
    exM.n_pool = exM.n_trees * exM.depth ∧
    exM.split_points.length = exM.n_array * exM.n_trees ∧
    exM.tree_leaves.length = exM.n_trees ∧
    exM.leaf_first_indices_all = count_first_leaf_indices_all exM.n_samples exM.depth ∧
    exM.leaf_first_indices =
      (count_first_leaf_indices_all exM.n_samples exM.depth).getD exM.depth [] ∧
    (if exM.density < 1
      then exM.dense_random_matrix = [] ∧ exM.sparse_random_matrix.Pairwise triple_lt
      else exM.sparse_random_matrix = [] ∧
        exM.dense_random_matrix.length = exM.n_pool * exM.dim) ∧
    load exM.n_samples exM.dim (save exM) = some exM :=
  ⟨by decide, by decide, by decide, by decide, by decide, by decide, by decide,
    (C5_save_load_roundtrip exM (by decide) (by decide) (by decide) (by decide)
      (by decide) (by decide) (by decide)).1⟩

/-- Witness for C6 on a singleton Pareto set with an infeasible target. -/
theorem C6_get_optimal_parameters_witness :
    ([exPar].Pairwise (fun a b => a.estimated_qtime < b.estimated_qtime)) ∧
    (∀ p ∈ [exPar], ¬ p.estimated_recall > (9 / 10 : ℚ) - 1 / 10000) ∧
    get_optimal_parameters [exPar] (9 / 10) = Parameters.empty :=
  ⟨by decide, by decide,
    (C6_get_optimal_parameters [exPar] (9 / 10) (by decide)).2 (by decide)⟩

/-- Witness for the amended C7 at the concrete autotuned state. -/
theorem C7_infeasible_trim_witness :
    (∀ p ∈ exState.opt_pars, ¬ p.estimated_recall > (9 / 10 : ℚ) - 1 / 10000) ∧
    (0 : ℚ) ≤ 9 / 10 ∧ exState.votes = 0 ∧
    ((subset_trees exState (9 / 10) (initState exState.n_samples exState.dim 7)).n_trees = 0 ∧
      (delete_extra_trees exState (9 / 10)).n_trees = exState.n_trees ∧
      query_auto (subset_trees exState (9 / 10)
          (initState exState.n_samples exState.dim 7)) exX [0] =
        some (List.replicate 7 (-1)) ∧
      query_auto (delete_extra_trees exState (9 / 10)) exX [0] =
        some (List.replicate exState.k (-1))) :=
  ⟨by decide, by decide, by decide,
    C7_infeasible_trim exState (9 / 10) 7 exX [0] (by decide) (by decide) (by decide)⟩

/-- Counterexample to C7 as stated: on an infeasible target,
delete_extra_trees does not empty the forest; the tree count stays 1. -/
theorem C7_delete_counterexample :
    (delete_extra_trees exState (9 / 10)).n_trees = 1 ∧ exState.n_trees = 1 ∧
    (delete_extra_trees exState (9 / 10)).n_trees ≠ 0 :=
  ⟨by decide, by decide, by decide⟩

/-- Counterexample to C8 as stated: with an estimated-qtime tie among
candidates, the opt_pars the code computes differs from the greedy scan
over all candidates in ascending estimated_qtime (the std::set drops the
tied candidate and the fastest record's recall is perturbed), for either
value of the perturbation. -/
theorem C8_pareto_counterexample :
    fit_times_opt_pars exRecall exQtime 1 1 2 1 (1 / 10000) ≠
      claim_opt_pars exRecall exQtime 1 1 2 1 ∧
    fit_times_opt_pars exRecall exQtime 1 1 2 1 (2 / 10000) ≠
      claim_opt_pars exRecall exQtime 1 1 2 1 :=
  ⟨by decide, by decide⟩

/-- Witness for the amended C9 at a concrete forest and query. -/
theorem C9_no_input_validation_witness :
    (0 : Int) ≤ 0 ∧
    (elected exF (mat_vec exP [0]) 0 = [] ∧
      queryMrpt exF exP exX [0] 2 0 = List.replicate 2 (-1)) :=
  ⟨by decide, C9_no_input_validation exF exP exX [0] 2 0 (by decide)⟩

/-- Counterexample to C9 as stated: with the invalid k = 3 over
n_samples = 2, no fast failure happens: the query runs the full search and
its output depends on the index contents (two indistinguishable-metadata
forests over different data give different outputs containing genuine
neighbour indices). -/
theorem C9_validation_counterexample :
    exF.n_samples = 2 ∧ (2 : Nat) < 3 ∧
    queryMrpt exF exP exX [0] 3 1 = [0, -1, -1] ∧
    queryMrpt exF2 exP exX2 [0] 3 1 = [1, -1, -1] ∧
    queryMrpt exF exP exX [0] 3 1 ≠ queryMrpt exF2 exP exX2 [0] 3 1 :=
  ⟨by decide, by decide, by decide, by decide, by decide⟩

/-- Witness for C10 at the concrete one-tree forest. -/
theorem C10_elected_capacity_witness :
    (1 : Int) ≤ 1 ∧
    (elected (growForest (proj_of exP exX 1) 1 1 2 1) (mat_vec exP [0]) 1).length ≤
      1 * (2 / 2 ^ 1 + 1) :=
  ⟨by decide,
    C10_elected_capacity (proj_of exP exX 1) 1 1 2 1 (mat_vec exP [0]) 1 (by decide)⟩

end ConcreteEvaluation

end Mrpt